import Mathlib

/-! gocomments: line classifier, file analyzer and aggregator.

A shallow embedding of `main.go`.

* A line (the value of `scanner.Text()`) is a `String`.  The three markers are
  ASCII, so searching for them code point by code point agrees with the
  byte-wise search of Go on UTF-8 text.
* Go `int` counters are `Int`: every counter is bounded by the number of lines
  read, far below the 64-bit range.
* `os.Open` followed by the `bufio.Scanner` loop is a function from a path to
  either an open failure or the sequence of lines the scanner delivers.
* The channel `resultCh` hands the aggregation loop a sequence of results, in
  some order: a `List FileResult`.
-/

namespace gocomments

/-! ## Package `strings` -/

namespace strings

/-- Substring search on character lists: `substr` occurs somewhere in `s`. -/
def containsChars : List Char → List Char → Bool
  | [], substr => substr.isPrefixOf []
  | c :: cs, substr => substr.isPrefixOf (c :: cs) || containsChars cs substr

/-- Go `strings.Contains(s, substr)`. -/
def Contains (s substr : String) : Bool :=
  containsChars s.toList substr.toList

end strings

/-! ## Constants and types -/

def openComment : String := "/*"
def closeComment : String := "*/"
def singleLineComment : String := "//"

/-- A Go `error` value other than nil, identified by its message. -/
abbrev GoError := String

/-- Go `type FileResult struct`; `Error = none` is the nil error. -/
structure FileResult where
  FilePath : String
  CodeLines : Int
  MultilineComments : Int
  SingleLineComments : Int
  Error : Option GoError
  deriving DecidableEq, Repr

/-- What `os.Open` and the scanner deliver for a path: the open failure, or
the lines returned by successive `scanner.Text()` calls. -/
abbrev FileSystem := String → Except GoError (List String)

/-! ## `analyzeFile` -/

/-- The local variables of `analyzeFile` that live across loop iterations. -/
structure ScanState where
  lineNumber : Int
  multilineCommentLines : Int
  singleLineCommentLines : Int
  inMultilineComment : Bool
  deriving DecidableEq, Repr

/-- The `var (...)` block of `analyzeFile`. -/
def ScanState.init : ScanState :=
  { lineNumber := 0, multilineCommentLines := 0, singleLineCommentLines := 0,
    inMultilineComment := false }

/-- The `if / else if` chain on the block-comment markers (lines 142-154). -/
def blockStep (st : ScanState) (containOpens containCloses : Bool) : ScanState :=
  if containOpens && containCloses then
    { st with multilineCommentLines := st.multilineCommentLines + 1 }
  else if containOpens then
    { st with inMultilineComment := true,
              multilineCommentLines := st.multilineCommentLines + 1 }
  else if containCloses then
    if st.inMultilineComment then
      { st with multilineCommentLines := st.multilineCommentLines + 1,
                inMultilineComment := false }
    else st
  else if st.inMultilineComment then
    { st with multilineCommentLines := st.multilineCommentLines + 1 }
  else st

/-- The separate `if containSingleLineComment` statement (lines 156-158). -/
def lineStep (st : ScanState) (containSingleLineComment : Bool) : ScanState :=
  if containSingleLineComment then
    { st with singleLineCommentLines := st.singleLineCommentLines + 1 }
  else st

/-- One iteration of the `for scanner.Scan()` loop (lines 136-158). -/
def scanLine (st : ScanState) (line : String) : ScanState :=
  let st := { st with lineNumber := st.lineNumber + 1 }
  let containOpens := strings.Contains line openComment
  let containCloses := strings.Contains line closeComment
  let containSingleLineComment := strings.Contains line singleLineComment
  lineStep (blockStep st containOpens containCloses) containSingleLineComment

/-- The whole scanner loop, started from a given state. -/
def scanFrom (st : ScanState) (lines : List String) : ScanState :=
  lines.foldl scanLine st

/-- The scanner loop of `analyzeFile`, from the initial variables. -/
def scanLines (lines : List String) : ScanState :=
  scanFrom ScanState.init lines

/-- Go `analyzeFile`: `(codeLines, multilineCommentLines,
singleLineCommentLines, err)`. -/
def analyzeFile (fs : FileSystem) (filePath : String) :
    Int × Int × Int × Option GoError :=
  match fs filePath with
  | .error err => (0, 0, 0, some err)
  | .ok lines =>
    let st := scanLines lines
    let codeLines := st.lineNumber - st.multilineCommentLines - st.singleLineCommentLines
    (codeLines, st.multilineCommentLines, st.singleLineCommentLines, none)

/-- Go `analyzeFileAsync`, as far as the value sent on `resultCh` goes. -/
def analyzeFileAsync (fs : FileSystem) (filePath : String) : FileResult :=
  let (codeLines, multilineComments, singleLineComments, err) := analyzeFile fs filePath
  { FilePath := filePath, CodeLines := codeLines, MultilineComments := multilineComments,
    SingleLineComments := singleLineComments, Error := err }

/-- The `k`-th line the scanner delivers, counted from 0. -/
def lineAt (lines : List String) (k : Nat) : String :=
  lines.getD k ""

/-- The loop variables of `analyzeFile` once the first `k` lines have been
processed. -/
def stateAfter (lines : List String) (k : Nat) : ScanState :=
  scanLines (lines.take k)

/-! ## The aggregation loop of `main` -/

/-- The accumulator variables of `main` (lines 39-45). -/
structure Totals where
  totalCodeLines : Int
  totalMultilineComments : Int
  totalSingleLineComments : Int
  totalProcessedLines : Int
  filesProcessed : Int
  deriving DecidableEq, Repr

/-- The `var (...)` block of `main`: every accumulator starts at 0. -/
def Totals.init : Totals :=
  { totalCodeLines := 0, totalMultilineComments := 0, totalSingleLineComments := 0,
    totalProcessedLines := 0, filesProcessed := 0 }

/-- Component-wise sum of two accumulator records. -/
def Totals.add (a b : Totals) : Totals :=
  { totalCodeLines := a.totalCodeLines + b.totalCodeLines,
    totalMultilineComments := a.totalMultilineComments + b.totalMultilineComments,
    totalSingleLineComments := a.totalSingleLineComments + b.totalSingleLineComments,
    totalProcessedLines := a.totalProcessedLines + b.totalProcessedLines,
    filesProcessed := a.filesProcessed + b.filesProcessed }

/-- The body of `for result := range resultCh` (lines 60-68); the log line of
the error branch is not part of the state. -/
def aggregateStep (t : Totals) (result : FileResult) : Totals :=
  if result.Error ≠ none then t
  else
    { totalCodeLines := t.totalCodeLines + result.CodeLines,
      totalMultilineComments := t.totalMultilineComments + result.MultilineComments,
      totalSingleLineComments := t.totalSingleLineComments + result.SingleLineComments,
      totalProcessedLines := t.totalProcessedLines +
        (result.CodeLines + result.MultilineComments + result.SingleLineComments),
      filesProcessed := t.filesProcessed + 1 }

/-- The loop `for result := range resultCh`, over the results in the order the
channel delivers them. -/
def aggregateFrom (t : Totals) (results : List FileResult) : Totals :=
  results.foldl aggregateStep t

/-- The aggregation loop of `main`, from the zeroed accumulators. -/
def aggregate (results : List FileResult) : Totals :=
  aggregateFrom Totals.init results

/-! ## `float64` arithmetic

Go `float64` is IEEE 754 binary64 with round-to-nearest, ties-to-even.  A finite
value is kept as sign, significand and exponent, `(-1)^neg * m * 2^e`, in the
form IEEE stores it: `2^52 ≤ m < 2^53` with `-1074 ≤ e ≤ 971` (normal), or
`m < 2^52` with `e = -1074` (subnormal and zero). -/

/-- A `float64` value. -/
inductive Float64 where
  | fin (neg : Bool) (m : Nat) (e : Int)
  | inf (neg : Bool)
  | nan
  deriving DecidableEq, Repr

/-- Floor of the binary logarithm, with `fuel` bounding the number of halvings. -/
def log2Fuel : Nat → Nat → Nat
  | 0, _ => 0
  | fuel + 1, n => if n < 2 then 0 else log2Fuel fuel (n / 2) + 1

/-- Floor of the binary logarithm of `n` (0 for `n = 0`). -/
def log2 (n : Nat) : Nat := log2Fuel n n

/-- The integer nearest to `n / d`, ties going to the even one. -/
def roundHalfEven (n d : Nat) : Nat :=
  let q := n / d
  let r := n % d
  if d < 2 * r ∨ (2 * r = d ∧ q % 2 = 1) then q + 1 else q

/-- Rounding of the real number `(-1)^neg * num / den` (`den > 0`) to `float64`:
the exponent is that of the binade of `num / den`, not below the subnormal
exponent `-1074`; the significand is rounded to nearest-even; a significand
rounded up to `2^53` moves to the next binade; past the largest exponent the
result is an infinity. -/
def Float64.round (neg : Bool) (num den : Nat) : Float64 :=
  let t := (num <<< 1074) / den
  let e : Int := if t = 0 then -1074 else max (-1074) ((log2 t : Int) - 1074 - 52)
  let m := if 0 ≤ e then roundHalfEven num (den <<< e.toNat)
           else roundHalfEven (num <<< (-e).toNat) den
  let me : Nat × Int := if m = 1 <<< 53 then (1 <<< 52, e + 1) else (m, e)
  if 971 < me.2 then .inf neg else .fin neg me.1 me.2

/-- The conversion `float64(n)` of an integer. -/
def Float64.ofInt (n : Int) : Float64 :=
  Float64.round (decide (n < 0)) n.natAbs 1

/-- The `float64` quotient `x / y`: NaN for a NaN operand, `∞ / ∞` and `0 / 0`;
an infinity for a nonzero dividend over zero. -/
def Float64.div : Float64 → Float64 → Float64
  | .nan, _ => .nan
  | _, .nan => .nan
  | .inf _, .inf _ => .nan
  | .inf s, .fin t _ _ => .inf (xor s t)
  | .fin s _ _, .inf t => .fin (xor s t) 0 (-1074)
  | .fin s m e, .fin t n f =>
    if n = 0 then (if m = 0 then .nan else .inf (xor s t))
    else Float64.round (xor s t) (m <<< (e + 1074).toNat) (n <<< (f + 1074).toNat)

/-- The `float64` product `x * y`: NaN for a NaN operand and `0 * ∞`. -/
def Float64.mul : Float64 → Float64 → Float64
  | .nan, _ => .nan
  | _, .nan => .nan
  | .inf s, .inf t => .inf (xor s t)
  | .inf s, .fin t n _ => if n = 0 then .nan else .inf (xor s t)
  | .fin s m _, .inf t => if m = 0 then .nan else .inf (xor s t)
  | .fin s m e, .fin t n f =>
    Float64.round (xor s t) ((m * n) <<< ((e + 1074).toNat + (f + 1074).toNat)) (1 <<< 2148)

/-- The rational number a finite `float64` stands for; `none` for NaN and the
infinities. -/
def Float64.toRat : Float64 → Option ℚ
  | .fin neg m e => some ((if neg then -1 else 1) * (m : ℚ) * (2 : ℚ) ^ e)
  | .inf _ => none
  | .nan => none

/-- The value `x` is finite and stands for the integer `(-1)^neg * k`, kept
with an exponent `-a` in the `float64` range. -/
def Float64.IsInt (x : Float64) (neg : Bool) (k : Nat) : Prop :=
  ∃ a : Nat, a ≤ 1074 ∧ x = Float64.fin neg (k * 2 ^ a) (-(a : Int))

/-- The rational `v` has the form of a finite `float64`: it is `c * 2 ^ f` for
an integer significand `|c| < 2 ^ 53` and an exponent `f ≥ -1074`.  Every
finite `float64` value has this form (no upper bound is put on `f` here). -/
def Float64.Representable (v : ℚ) : Prop :=
  ∃ c f : Int, |c| < 2 ^ 53 ∧ -1074 ≤ f ∧ v = (c : ℚ) * 2 ^ f

/-- Line 70 of `main`:
`float64(totalMultilineComments+totalSingleLineComments) / float64(totalCodeLines) * 100`. -/
def percentageTotalComments (t : Totals) : Float64 :=
  Float64.mul
    (Float64.div (Float64.ofInt (t.totalMultilineComments + t.totalSingleLineComments))
      (Float64.ofInt t.totalCodeLines))
    (Float64.ofInt 100)

/-- Line 161 of `analyzeFile` on the loop variables:
`lineNumber - multilineCommentLines - singleLineCommentLines`. -/
def ScanState.codeLines (st : ScanState) : Int :=
  st.lineNumber - st.multilineCommentLines - st.singleLineCommentLines

/-- The block-comment rows of the Line Classifier of the specification, for a
line with or without opener and closer and the incoming state: whether the line
is labelled block-comment, and the state after it.  Opener and closer: block
comment, state unchanged; only an opener: block comment, state inside; only a
closer and state inside: block comment, state outside; state inside: block
comment, state unchanged; otherwise not a block comment, state unchanged. -/
def specBlockTransition (opens closes inside : Bool) : Bool × Bool :=
  if opens && closes then (true, inside)
  else if opens then (true, true)
  else if closes && inside then (true, false)
  else if inside then (true, inside)
  else (false, inside)

/-- The iteration of the loop on line `k` increments `multilineCommentLines`. -/
def incrementsMultiline (lines : List String) (k : Nat) : Bool :=
  decide ((scanLine (stateAfter lines k) (lineAt lines k)).multilineCommentLines =
    (stateAfter lines k).multilineCommentLines + 1)

/-- The iteration of the loop on line `k` increments `singleLineCommentLines`. -/
def incrementsSingleLine (lines : List String) (k : Nat) : Bool :=
  decide ((scanLine (stateAfter lines k) (lineAt lines k)).singleLineCommentLines =
    (stateAfter lines k).singleLineCommentLines + 1)

/-- The number of lines that increment neither comment counter. -/
def countNeither (lines : List String) : Nat :=
  (List.range lines.length).countP
    (fun k => !incrementsMultiline lines k && !incrementsSingleLine lines k)

/-- The number of lines that increment both comment counters. -/
def countBoth (lines : List String) : Nat :=
  (List.range lines.length).countP
    (fun k => incrementsMultiline lines k && incrementsSingleLine lines k)

/-- The number of lines the scanner reads from a path; a file that fails to
open is not read. -/
def linesRead (fs : FileSystem) (filePath : String) : Nat :=
  match fs filePath with
  | .error _ => 0
  | .ok lines => lines.length
/-- A sample file system: `a.ts` has four lines, `b.ts` cannot be opened, every
other path is an empty file. -/
def sampleFS : FileSystem := fun p =>
  if p = "a.ts" then .ok ["let a = 1;", "/* b", "c */ // d", ""]
  else if p = "b.ts" then .error "open b.ts: no such file or directory"
  else .ok []

/-! ## Path discovery -/

/-- Go `strings.HasSuffix(s, suffix)`. -/
def strings.HasSuffix (s suffix : String) : Bool :=
  suffix.toList.isSuffixOf s.toList

/-- The `for _, dir := range excludedDirs` loop of `shouldExcludeDir`, with its
early `return true` and the final `return false`. -/
def shouldExcludeDirLoop (path : String) : List String → Bool
  | [] => false
  | dir :: rest =>
    if strings.Contains path dir then true else shouldExcludeDirLoop path rest

/-- Go `shouldExcludeDir`. -/
def shouldExcludeDir (path : String) : Bool :=
  let excludedDirs := ["node_modules", "dist"]
  shouldExcludeDirLoop path excludedDirs

/-- The part of `os.FileInfo` the walk function reads. -/
structure FileInfo where
  Name : String
  IsDir : Bool
  deriving DecidableEq, Repr

/-- One call `filepath.Walk` makes to the walk function: the path visited, its
`os.FileInfo`, and the error met on the way to it (`none` is nil). -/
structure WalkCall where
  path : String
  info : FileInfo
  err : Option GoError
  deriving DecidableEq, Repr

/-- The function literal passed to `filepath.Walk` (lines 98-106): the new value
of `files` and the error it returns. -/
def walkFn (files : List String) (c : WalkCall) : List String × Option GoError :=
  if c.err ≠ none then (files, c.err)
  else if !c.info.IsDir && !shouldExcludeDir c.path &&
      (strings.HasSuffix c.info.Name ".tsx" || strings.HasSuffix c.info.Name ".ts") then
    (files ++ [c.path], none)
  else (files, none)

/-- The run of `filepath.Walk` over the entries of the tree in walk order: the
walk function is called on each and the walk stops at the first error it
returns. -/
def walkFrom (files : List String) : List WalkCall → List String × Option GoError
  | [] => (files, none)
  | c :: rest =>
    match walkFn files c with
    | (files', some err) => (files', some err)
    | (files', none) => walkFrom files' rest

/-- Go `getTSFilesInFolder`, given the entries `filepath.Walk` visits under
`folderPath`. -/
def getTSFilesInFolder (walk : List WalkCall) : List String × Option GoError :=
  walkFrom [] walk

/-- The test of line 102 on one visited entry. -/
def keepsEntry (c : WalkCall) : Bool :=
  !c.info.IsDir && !shouldExcludeDir c.path &&
    (strings.HasSuffix c.info.Name ".tsx" || strings.HasSuffix c.info.Name ".ts")

/-! ## The goroutines of `main`

Lines 46-59 and `analyzeFileAsync` as a transition system.  The goroutines are
`main`, one worker per file, and the goroutine that waits on the `WaitGroup`
and closes `resultCh`; a schedule is the sequence of the steps they take, in
the order they happen.  `resultCh` is a FIFO buffer of capacity `len(files)`;
`wg` is the counter of the `WaitGroup`. -/

/-- Where the goroutine of lines 54-57 is: not yet started, blocked in
`wg.Wait()`, past `wg.Wait()`, past `close(resultCh)`. -/
inductive CloserPhase where
  | notStarted
  | waiting
  | released
  | closed
  deriving DecidableEq, Repr

/-- The state of the goroutines and of the channel. -/
structure DispatchState where
  /-- The files the loop of line 49 has not reached yet. -/
  pending : List String
  /-- The workers started by `go analyzeFileAsync`, before their send. -/
  running : List String
  /-- The workers past their send, before the deferred `wg.Done()`. -/
  sent : List String
  /-- The counter of `wg`. -/
  wg : Int
  /-- The goroutine of lines 54-57; `closed` means `resultCh` is closed. -/
  closer : CloserPhase
  /-- The results buffered in `resultCh`, oldest first. -/
  buffer : List FileResult
  /-- The results the loop of line 59 has taken so far, in order. -/
  received : List FileResult
  /-- The loop of line 59 has ended. -/
  consumerDone : Bool
  /-- A send on the closed channel or a negative `WaitGroup` counter happened. -/
  panicked : Bool
  deriving DecidableEq, Repr

/-- The state at line 49, before the first iteration. -/
def DispatchState.init (files : List String) : DispatchState :=
  { pending := files, running := [], sent := [], wg := 0, closer := .notStarted,
    buffer := [], received := [], consumerDone := false, panicked := false }

/-- One step of one goroutine. -/
inductive Action where
  /-- In `main`: `wg.Add(1); go analyzeFileAsync(file, &wg, resultCh)` for the next file. -/
  | launch
  /-- In `main`, after the loop: `go func() { wg.Wait(); close(resultCh) }()`. -/
  | spawnCloser
  /-- The `i`-th running worker: `resultCh <- &FileResult{...}`. -/
  | send (i : Nat)
  /-- The `i`-th worker past its send: the deferred `wg.Done()`. -/
  | done (i : Nat)
  /-- The closing goroutine: `wg.Wait()` returns. -/
  | wake
  /-- The closing goroutine: `close(resultCh)`. -/
  | close
  /-- In `main`: the `range` of line 59 takes the next result. -/
  | recv
  /-- In `main`: the `range` of line 59 ends. -/
  | finish
  deriving DecidableEq, Repr

/-- The effect of a step, `none` when the goroutine cannot take it in this
state: a send blocks on a full buffer and panics on a closed channel,
`wg.Wait()` returns only at counter 0, a receive blocks on an empty open
channel, and the `range` ends only on an empty closed channel. -/
def dispatchStep (fs : FileSystem) (cap : Nat) (s : DispatchState) :
    Action → Option DispatchState
  | .launch =>
    if s.panicked then none
    else match s.pending with
      | [] => none
      | file :: rest =>
        some { s with pending := rest, running := s.running ++ [file], wg := s.wg + 1 }
  | .spawnCloser =>
    if s.panicked then none
    else if s.pending = [] ∧ s.closer = .notStarted then some { s with closer := .waiting }
    else none
  | .send i =>
    if s.panicked then none
    else match s.running[i]? with
      | none => none
      | some file =>
        if s.closer = .closed then some { s with panicked := true }
        else if s.buffer.length < cap then
          some { s with running := s.running.eraseIdx i, sent := s.sent ++ [file],
                        buffer := s.buffer ++ [analyzeFileAsync fs file] }
        else none
  | .done i =>
    if s.panicked then none
    else match s.sent[i]? with
      | none => none
      | some _ =>
        if s.wg ≤ 0 then some { s with panicked := true }
        else some { s with sent := s.sent.eraseIdx i, wg := s.wg - 1 }
  | .wake =>
    if s.panicked then none
    else if s.closer = .waiting ∧ s.wg = 0 then some { s with closer := .released }
    else none
  | .close =>
    if s.panicked then none
    else if s.closer = .released then some { s with closer := .closed }
    else none
  | .recv =>
    if s.panicked then none
    else if s.closer ≠ .notStarted ∧ s.consumerDone = false then
      match s.buffer with
      | [] => none
      | r :: rest => some { s with buffer := rest, received := s.received ++ [r] }
    else none
  | .finish =>
    if s.panicked then none
    else if s.closer = .closed ∧ s.buffer = [] ∧ s.consumerDone = false then
      some { s with consumerDone := true }
    else none

/-- The state after the steps of a schedule, `none` if one of them cannot be
taken. -/
def runSchedule (fs : FileSystem) (cap : Nat) :
    DispatchState → List Action → Option DispatchState
  | s, [] => some s
  | s, a :: rest =>
    match dispatchStep fs cap s a with
    | none => none
    | some s' => runSchedule fs cap s' rest

/-- Lines 46-59 of `main` on `files` under a schedule: `resultCh` has capacity
`len(files)`. -/
def dispatch (fs : FileSystem) (files : List String) (schedule : List Action) :
    Option DispatchState :=
  runSchedule fs files.length (DispatchState.init files) schedule

/-- The rank of a phase of the closing goroutine: the steps it has left. -/
def CloserPhase.rank : CloserPhase → Nat
  | .notStarted => 3
  | .waiting => 2
  | .released => 1
  | .closed => 0

/-- A bound on the number of steps still to come. -/
def DispatchState.stepsLeft (s : DispatchState) : Nat :=
  5 * s.pending.length + 4 * s.running.length + s.sent.length + 2 * s.buffer.length +
    s.closer.rank + (if s.consumerDone then 0 else 1) + (if s.panicked then 0 else 1)

/-- What every reachable state satisfies. -/
structure DispatchInv (fs : FileSystem) (files : List String) (s : DispatchState) : Prop where
  noPanic : s.panicked = false
  counter : s.wg = (s.running.length : Int) + (s.sent.length : Int)
  loopOver : s.closer ≠ .notStarted → s.pending = []
  released : s.closer = .released ∨ s.closer = .closed → s.running = [] ∧ s.sent = []
  results : (s.received ++ s.buffer ++ (s.running ++ s.pending).map (analyzeFileAsync fs)).Perm
    (files.map (analyzeFileAsync fs))
  finished : s.consumerDone = true → s.closer = .closed ∧ s.buffer = []

end gocomments

/-! # Properties -/

namespace gocomments

/-! ## `strings.Contains` -/

/-- The search of `strings.Contains` finds exactly the contiguous sublists. -/
theorem strings.containsChars_iff_isInfix (s substr : List Char) :
    strings.containsChars s substr = true ↔ substr <:+: s := by
  induction s with
  | nil =>
    cases substr <;> simp [strings.containsChars, List.isPrefixOf]
  | cons c cs ih =>
    simp only [strings.containsChars, Bool.or_eq_true, List.isPrefixOf_iff_prefix, ih,
      List.infix_cons_iff]

/-! ## The scanner loop -/

theorem blockStep_lineNumber (st : ScanState) (o c : Bool) :
    (blockStep st o c).lineNumber = st.lineNumber := by
  unfold blockStep
  split_ifs <;> rfl

theorem blockStep_single (st : ScanState) (o c : Bool) :
    (blockStep st o c).singleLineCommentLines = st.singleLineCommentLines := by
  unfold blockStep
  split_ifs <;> rfl

/-- The block-comment counter grows by one exactly when the line has an opener
or the loop is inside a block comment. -/
theorem blockStep_multi (st : ScanState) (o c : Bool) :
    (blockStep st o c).multilineCommentLines =
      st.multilineCommentLines + (if o = true ∨ st.inMultilineComment = true then 1 else 0) := by
  unfold blockStep
  cases o <;> cases c <;> cases h : st.inMultilineComment <;> simp [h]

/-- The carried flag after the `if / else if` chain. -/
theorem blockStep_in (st : ScanState) (o c : Bool) :
    (blockStep st o c).inMultilineComment =
      (if o && c then st.inMultilineComment else if o then true
       else if c then false else st.inMultilineComment) := by
  unfold blockStep
  cases o <;> cases c <;> cases h : st.inMultilineComment <;> simp [h]

theorem lineStep_lineNumber (st : ScanState) (b : Bool) :
    (lineStep st b).lineNumber = st.lineNumber := by
  unfold lineStep
  split_ifs <;> rfl

theorem lineStep_multi (st : ScanState) (b : Bool) :
    (lineStep st b).multilineCommentLines = st.multilineCommentLines := by
  unfold lineStep
  split_ifs <;> rfl

theorem lineStep_in (st : ScanState) (b : Bool) :
    (lineStep st b).inMultilineComment = st.inMultilineComment := by
  unfold lineStep
  split_ifs <;> rfl

theorem lineStep_single (st : ScanState) (b : Bool) :
    (lineStep st b).singleLineCommentLines =
      st.singleLineCommentLines + (if b = true then 1 else 0) := by
  unfold lineStep
  split_ifs <;> simp

theorem scanLine_lineNumber (st : ScanState) (line : String) :
    (scanLine st line).lineNumber = st.lineNumber + 1 := by
  simp only [scanLine, lineStep_lineNumber, blockStep_lineNumber]

theorem scanLine_multi (st : ScanState) (line : String) :
    (scanLine st line).multilineCommentLines =
      st.multilineCommentLines +
        (if strings.Contains line openComment = true ∨ st.inMultilineComment = true
         then 1 else 0) := by
  simp only [scanLine, lineStep_multi, blockStep_multi]

theorem scanLine_single (st : ScanState) (line : String) :
    (scanLine st line).singleLineCommentLines =
      st.singleLineCommentLines +
        (if strings.Contains line singleLineComment = true then 1 else 0) := by
  simp only [scanLine, lineStep_single, blockStep_single]

theorem scanLine_in (st : ScanState) (line : String) :
    (scanLine st line).inMultilineComment =
      (if strings.Contains line openComment && strings.Contains line closeComment
       then st.inMultilineComment
       else if strings.Contains line openComment then true
       else if strings.Contains line closeComment then false
       else st.inMultilineComment) := by
  simp only [scanLine, lineStep_in, blockStep_in]

theorem scanFrom_lineNumber (lines : List String) (st : ScanState) :
    (scanFrom st lines).lineNumber = st.lineNumber + lines.length := by
  induction lines generalizing st with
  | nil => simp [scanFrom]
  | cons l ls ih =>
    have h := ih (scanLine st l)
    simp only [scanFrom, List.foldl_cons] at h ⊢
    rw [h, scanLine_lineNumber, List.length_cons]
    push_cast
    ring

/-- The two comment counters never decrease, so from the zeroed variables they
are never negative. -/
theorem scanFrom_counters_mono (lines : List String) (st : ScanState) :
    st.multilineCommentLines ≤ (scanFrom st lines).multilineCommentLines ∧
    st.singleLineCommentLines ≤ (scanFrom st lines).singleLineCommentLines := by
  induction lines generalizing st with
  | nil => simp [scanFrom]
  | cons l ls ih =>
    have h := ih (scanLine st l)
    simp only [scanFrom, List.foldl_cons] at h ⊢
    rw [scanLine_multi, scanLine_single] at h
    constructor
    · have := h.1
      split_ifs at this <;> omega
    · have := h.2
      split_ifs at this <;> omega

theorem stateAfter_succ (lines : List String) (k : Nat) (hk : k < lines.length) :
    stateAfter lines (k + 1) = scanLine (stateAfter lines k) (lineAt lines k) := by
  unfold stateAfter scanLines scanFrom lineAt
  rw [List.take_succ, List.foldl_append]
  simp [List.getElem?_eq_getElem hk]

/-- Inside a span opened on line `i` and not yet closed, the loop carries the
flag `inMultilineComment` into every later line up to line `j`. -/
theorem stateAfter_in_span (lines : List String) (i j : Nat) (hj : j < lines.length)
    (hopen : strings.Contains (lineAt lines i) openComment = true)
    (hfirst : i < j → strings.Contains (lineAt lines i) closeComment = false)
    (hmid : ∀ k, i < k → k < j →
      ¬ (strings.Contains (lineAt lines k) closeComment = true ∧
         strings.Contains (lineAt lines k) openComment = false)) :
    ∀ k, i < k → k ≤ j → (stateAfter lines k).inMultilineComment = true := by
  intro k
  induction k with
  | zero => intro h; omega
  | succ n ih =>
    intro hin hnj
    rw [stateAfter_succ lines n (by omega), scanLine_in]
    rcases Nat.lt_or_ge i n with hlt | hge
    · have hprev := ih hlt (by omega)
      have hm := hmid n hlt (by omega)
      cases ho : strings.Contains (lineAt lines n) openComment <;>
        cases hc : strings.Contains (lineAt lines n) closeComment <;>
        simp_all
    · have hni : n = i := by omega
      subst hni
      simp [hopen, hfirst (by omega)]

/-! ## Claims on `analyzeFile` -/

/-- C1: for every file that opens and delivers the lines `lines`, the three
counts returned by `analyzeFile` add up to the number of lines read. -/
theorem analyzeFile_counts_sum (fs : FileSystem) (filePath : String) (lines : List String)
    (hfile : fs filePath = .ok lines) :
    (analyzeFile fs filePath).1 + (analyzeFile fs filePath).2.1 +
      (analyzeFile fs filePath).2.2.1 = (lines.length : Int) := by
  have hn := scanFrom_lineNumber lines ScanState.init
  simp only [analyzeFile, hfile, scanLines]
  rw [hn]
  simp only [ScanState.init]
  ring

theorem analyzeFile_counts_sum_witness :
    (analyzeFile (fun _ => .ok ["let a = 1;", "/* b */ // c", ""]) "a.ts").1 +
      (analyzeFile (fun _ => .ok ["let a = 1;", "/* b */ // c", ""]) "a.ts").2.1 +
      (analyzeFile (fun _ => .ok ["let a = 1;", "/* b */ // c", ""]) "a.ts").2.2.1 =
      ((["let a = 1;", "/* b */ // c", ""] : List String).length : Int) :=
  analyzeFile_counts_sum (fun _ => .ok ["let a = 1;", "/* b */ // c", ""]) "a.ts"
    ["let a = 1;", "/* b */ // c", ""] rfl

/-- C2: the line `x = 1; /* note */ // trailing` satisfies the opener-and-closer
condition and contains the line-comment marker; one iteration of the loop of
`analyzeFile` on it increments both `multilineCommentLines` and
`singleLineCommentLines`, from either incoming state. -/
theorem scanLine_counts_line_twice :
    (∀ b : Bool,
      (scanLine { lineNumber := 0, multilineCommentLines := 0, singleLineCommentLines := 0,
                  inMultilineComment := b } "x = 1; /* note */ // trailing")
        = { lineNumber := 1, multilineCommentLines := 1, singleLineCommentLines := 1,
            inMultilineComment := b }) ∧
    strings.Contains "x = 1; /* note */ // trailing" openComment = true ∧
    strings.Contains "x = 1; /* note */ // trailing" closeComment = true ∧
    strings.Contains "x = 1; /* note */ // trailing" singleLineComment = true := by
  decide

/-- C3: on the one-line file `/* a */ // b` the code returns `codeLines = -1`
(with `multilineCommentLines = 1`, `singleLineCommentLines = 1` and no error):
the line is taken off the line count twice. -/
theorem analyzeFile_negative_codeLines :
    analyzeFile (fun _ => .ok ["/* a */ // b"]) "a.ts" = (-1, 1, 1, none) := by
  decide

/-- C4: when line `i` opens a block comment and line `j ≥ i` closes it, with no
closer on line `i` (if `i < j`) and no closer-only line strictly in between,
every line `i..j` increments `multilineCommentLines`, which therefore grows by
exactly `j - i + 1` over those lines, whatever else the lines contain. -/
theorem block_comment_span_counted (lines : List String) (i j : Nat)
    (hij : i ≤ j) (hj : j < lines.length)
    (hopen : strings.Contains (lineAt lines i) openComment = true)
    (_hclose : strings.Contains (lineAt lines j) closeComment = true)
    (hfirst : i < j → strings.Contains (lineAt lines i) closeComment = false)
    (hmid : ∀ k, i < k → k < j →
      ¬ (strings.Contains (lineAt lines k) closeComment = true ∧
         strings.Contains (lineAt lines k) openComment = false)) :
    (∀ k, i ≤ k → k ≤ j →
      (stateAfter lines (k + 1)).multilineCommentLines =
        (stateAfter lines k).multilineCommentLines + 1) ∧
    (stateAfter lines (j + 1)).multilineCommentLines =
      (stateAfter lines i).multilineCommentLines + ((j - i + 1 : Nat) : Int) := by
  have hstep : ∀ k, i ≤ k → k ≤ j →
      (stateAfter lines (k + 1)).multilineCommentLines =
        (stateAfter lines k).multilineCommentLines + 1 := by
    intro k hik hkj
    rw [stateAfter_succ lines k (by omega), scanLine_multi]
    rcases Nat.eq_or_lt_of_le hik with heq | hlt
    · subst heq
      simp [hopen]
    · simp [stateAfter_in_span lines i j hj hopen hfirst hmid k hlt hkj]
  refine ⟨hstep, ?_⟩
  have hsum : ∀ n, i + n ≤ j + 1 →
      (stateAfter lines (i + n)).multilineCommentLines =
        (stateAfter lines i).multilineCommentLines + (n : Int) := by
    intro n
    induction n with
    | zero => intro _; simp
    | succ n ih =>
      intro hn
      rw [← Nat.add_assoc, hstep (i + n) (by omega) (by omega), ih (by omega)]
      push_cast
      ring
  have h := hsum (j - i + 1) (by omega)
  have e : i + (j - i + 1) = j + 1 := by omega
  rw [e] at h
  exact h

theorem block_comment_span_counted_witness :
    (∀ k, 1 ≤ k → k ≤ 3 →
      (stateAfter ["a", "b /* c", "// d", "e */ f", "g"] (k + 1)).multilineCommentLines =
        (stateAfter ["a", "b /* c", "// d", "e */ f", "g"] k).multilineCommentLines + 1) ∧
    (stateAfter ["a", "b /* c", "// d", "e */ f", "g"] (3 + 1)).multilineCommentLines =
      (stateAfter ["a", "b /* c", "// d", "e */ f", "g"] 1).multilineCommentLines +
        ((3 - 1 + 1 : Nat) : Int) :=
  block_comment_span_counted ["a", "b /* c", "// d", "e */ f", "g"] 1 3 (by decide) (by decide)
    (by decide) (by decide) (by decide)
    (by
      intro k h1 h3
      have hk : k = 2 := by omega
      subst hk
      decide)

/-- C5: a line containing both the opener and the closer is counted as a
block-comment line and leaves the carried state as it was, whether the loop
was inside or outside a block comment. -/
theorem scanLine_open_and_close (st : ScanState) (line : String)
    (hopen : strings.Contains line openComment = true)
    (hclose : strings.Contains line closeComment = true) :
    (scanLine st line).multilineCommentLines = st.multilineCommentLines + 1 ∧
    (scanLine st line).inMultilineComment = st.inMultilineComment := by
  rw [scanLine_multi, scanLine_in]
  simp [hopen, hclose]

theorem scanLine_open_and_close_witness :
    (scanLine { lineNumber := 4, multilineCommentLines := 2, singleLineCommentLines := 0,
                inMultilineComment := true } "/* note */").multilineCommentLines = 2 + 1 ∧
    (scanLine { lineNumber := 4, multilineCommentLines := 2, singleLineCommentLines := 0,
                inMultilineComment := true } "/* note */").inMultilineComment = true :=
  scanLine_open_and_close
    { lineNumber := 4, multilineCommentLines := 2, singleLineCommentLines := 0,
      inMultilineComment := true } "/* note */" (by decide) (by decide)

/-- C9: the six-line scenario file yields `codeLines = 2`,
`multilineCommentLines = 3`, `singleLineCommentLines = 1` and no error. -/
theorem analyzeFile_scenario :
    analyzeFile
      (fun _ => .ok ["const x = 1;", "// comment", "/* start", "still in comment",
                     "end */", "const y = 2;"]) "scenario.ts" = (2, 3, 1, none) := by
  decide

/-! ## The aggregation loop -/

theorem aggregateStep_comm (t : Totals) (x y : FileResult) :
    aggregateStep (aggregateStep t x) y = aggregateStep (aggregateStep t y) x := by
  unfold aggregateStep
  split_ifs <;>
    first
      | rfl
      | (simp only [Totals.mk.injEq]
         refine ⟨?_, ?_, ?_, ?_, ?_⟩ <;> first | trivial | ring1)

theorem Totals.add_init (t : Totals) : t.add Totals.init = t := by
  cases t
  simp [Totals.add, Totals.init]

theorem aggregateStep_add (a t : Totals) (r : FileResult) :
    aggregateStep (a.add t) r = a.add (aggregateStep t r) := by
  unfold aggregateStep
  split_ifs
  · rfl
  · simp only [Totals.add, Totals.mk.injEq]
    refine ⟨?_, ?_, ?_, ?_, ?_⟩ <;> ring1

theorem aggregateFrom_add (results : List FileResult) (a t : Totals) :
    aggregateFrom (a.add t) results = a.add (aggregateFrom t results) := by
  induction results generalizing t with
  | nil => rfl
  | cons r rs ih =>
    simp only [aggregateFrom, List.foldl_cons] at ih ⊢
    rw [aggregateStep_add, ih]

theorem aggregate_append (xs ys : List FileResult) :
    aggregate (xs ++ ys) = (aggregate xs).add (aggregate ys) := by
  have h := aggregateFrom_add ys (aggregate xs) Totals.init
  rw [Totals.add_init] at h
  unfold aggregate at h ⊢
  rw [← h]
  simp [aggregateFrom, List.foldl_append]

theorem aggregate_cons (r : FileResult) (rs : List FileResult) :
    aggregate (r :: rs) = (aggregateStep Totals.init r).add (aggregate rs) := by
  have h := aggregate_append [r] rs
  simpa [aggregate, aggregateFrom] using h

/-- C6: aggregation is order-independent: a permutation of the results gives
the same totals, and the totals of a concatenation are the component-wise sum
of the totals of its parts. -/
theorem aggregate_order_independent (rs rs' xs ys : List FileResult)
    (hperm : rs.Perm rs') :
    aggregate rs = aggregate rs' ∧
    aggregate (xs ++ ys) = (aggregate xs).add (aggregate ys) := by
  refine ⟨?_, aggregate_append xs ys⟩
  unfold aggregate aggregateFrom
  exact hperm.foldl_eq' (fun x _ y _ z => aggregateStep_comm z x y) Totals.init

theorem aggregate_order_independent_witness :
    aggregate
        [{ FilePath := "a.ts", CodeLines := 5, MultilineComments := 1,
           SingleLineComments := 2, Error := none },
         { FilePath := "b.ts", CodeLines := 0, MultilineComments := 0,
           SingleLineComments := 0, Error := some "open b.ts: no such file" },
         { FilePath := "c.ts", CodeLines := 7, MultilineComments := 0,
           SingleLineComments := 3, Error := none }] =
      aggregate
        [{ FilePath := "c.ts", CodeLines := 7, MultilineComments := 0,
           SingleLineComments := 3, Error := none },
         { FilePath := "a.ts", CodeLines := 5, MultilineComments := 1,
           SingleLineComments := 2, Error := none },
         { FilePath := "b.ts", CodeLines := 0, MultilineComments := 0,
           SingleLineComments := 0, Error := some "open b.ts: no such file" }] ∧
    aggregate
        ([{ FilePath := "a.ts", CodeLines := 5, MultilineComments := 1,
            SingleLineComments := 2, Error := none }] ++
         [{ FilePath := "c.ts", CodeLines := 7, MultilineComments := 0,
            SingleLineComments := 3, Error := none }]) =
      (aggregate [{ FilePath := "a.ts", CodeLines := 5, MultilineComments := 1,
                    SingleLineComments := 2, Error := none }]).add
        (aggregate [{ FilePath := "c.ts", CodeLines := 7, MultilineComments := 0,
                      SingleLineComments := 3, Error := none }]) :=
  aggregate_order_independent _ _ _ _ (by decide)

/-- C7: the totals are the component-wise sums of the counters of the results
whose `Error` is nil, `filesProcessed` is the number of those results, a result
carrying an error leaves every accumulator unchanged, and dropping it from the
stream does not change the totals of the remaining results. -/
theorem aggregate_sums_successes (results : List FileResult) :
    (aggregate results).totalCodeLines =
      ((results.filter (fun r => r.Error = none)).map (fun r => r.CodeLines)).sum ∧
    (aggregate results).totalMultilineComments =
      ((results.filter (fun r => r.Error = none)).map (fun r => r.MultilineComments)).sum ∧
    (aggregate results).totalSingleLineComments =
      ((results.filter (fun r => r.Error = none)).map (fun r => r.SingleLineComments)).sum ∧
    (aggregate results).filesProcessed =
      ((results.filter (fun r => r.Error = none)).length : Int) ∧
    (∀ (t : Totals) (r : FileResult), r.Error ≠ none → aggregateStep t r = t) ∧
    (∀ (before after : List FileResult) (r : FileResult), r.Error ≠ none →
      aggregate (before ++ r :: after) = aggregate (before ++ after)) := by
  have hskip : ∀ (t : Totals) (r : FileResult), r.Error ≠ none → aggregateStep t r = t := by
    intro t r hr
    simp [aggregateStep, hr]
  refine ⟨?_, ?_, ?_, ?_, hskip, ?_⟩
  · induction results with
    | nil => rfl
    | cons r rs ih =>
      rw [aggregate_cons]
      by_cases hr : r.Error = none
      · simp [Totals.add, aggregateStep, Totals.init, hr, ih]
      · simp [Totals.add, aggregateStep, Totals.init, hr, ih]
  · induction results with
    | nil => rfl
    | cons r rs ih =>
      rw [aggregate_cons]
      by_cases hr : r.Error = none
      · simp [Totals.add, aggregateStep, Totals.init, hr, ih]
      · simp [Totals.add, aggregateStep, Totals.init, hr, ih]
  · induction results with
    | nil => rfl
    | cons r rs ih =>
      rw [aggregate_cons]
      by_cases hr : r.Error = none
      · simp [Totals.add, aggregateStep, Totals.init, hr, ih]
      · simp [Totals.add, aggregateStep, Totals.init, hr, ih]
  · induction results with
    | nil => rfl
    | cons r rs ih =>
      rw [aggregate_cons]
      by_cases hr : r.Error = none
      · simp [Totals.add, aggregateStep, Totals.init, hr, ih]
        omega
      · simp [Totals.add, aggregateStep, Totals.init, hr, ih]
  · intro before after r hr
    simp only [aggregate, aggregateFrom, List.foldl_append, List.foldl_cons]
    rw [hskip _ r hr]

theorem aggregate_sums_successes_witness :
    aggregate
        ([{ FilePath := "a.ts", CodeLines := 5, MultilineComments := 1,
            SingleLineComments := 2, Error := none }] ++
         { FilePath := "b.ts", CodeLines := 0, MultilineComments := 0,
           SingleLineComments := 0, Error := some "open b.ts: no such file" } ::
         [{ FilePath := "c.ts", CodeLines := 7, MultilineComments := 0,
            SingleLineComments := 3, Error := none }]) =
      aggregate
        ([{ FilePath := "a.ts", CodeLines := 5, MultilineComments := 1,
            SingleLineComments := 2, Error := none }] ++
         [{ FilePath := "c.ts", CodeLines := 7, MultilineComments := 0,
            SingleLineComments := 3, Error := none }]) :=
  (aggregate_sums_successes []).2.2.2.2.2 _ _ _ (by decide)

/-! ## `float64` rounding of integer values -/

set_option maxRecDepth 20000 in
/-- The rounding agrees with IEEE 754 binary64 on reference values: `1.0`,
`0.1 = 0x1.999999999999ap-4`, the ties `2^53 + 1` (down to even) and `2^53 + 3`
(up to even), and `2^63 - 1`. -/
theorem Float64.round_reference_values :
    Float64.ofInt 1 = Float64.fin false 4503599627370496 (-52) ∧
    Float64.div (Float64.ofInt 1) (Float64.ofInt 10) =
      Float64.fin false 7205759403792794 (-56) ∧
    Float64.ofInt 9007199254740993 = Float64.fin false 4503599627370496 1 ∧
    Float64.ofInt 9007199254740995 = Float64.fin false 4503599627370498 1 ∧
    Float64.ofInt 9223372036854775807 = Float64.fin false 4503599627370496 11 ∧
    Float64.ofInt (-3) = Float64.fin true 6755399441055744 (-51) := by
  decide

theorem log2Fuel_eq_log (fuel n : Nat) (h : n ≤ fuel) : log2Fuel fuel n = Nat.log 2 n := by
  induction fuel generalizing n with
  | zero =>
    have h0 : n = 0 := by omega
    subst h0
    simp [log2Fuel]
  | succ f ih =>
    unfold log2Fuel
    split_ifs with h2
    · exact (Nat.log_of_lt h2).symm
    · have hn : 2 ≤ n := by omega
      rw [ih (n / 2) (by omega), Nat.log_of_one_lt_of_le (by decide) hn]

theorem log2_eq_log (n : Nat) : log2 n = Nat.log 2 n :=
  log2Fuel_eq_log n n (Nat.le_refl n)

theorem log2_mul_pow (k a : Nat) (hk : k ≠ 0) : log2 (k * 2 ^ a) = log2 k + a := by
  rw [log2_eq_log, log2_eq_log]
  apply Nat.log_eq_of_pow_le_of_lt_pow
  · rw [Nat.pow_add]
    exact Nat.mul_le_mul_right _ (Nat.pow_log_le_self 2 hk)
  · have h := Nat.lt_pow_succ_log_self (by decide : 1 < 2) k
    calc k * 2 ^ a < 2 ^ (Nat.log 2 k + 1) * 2 ^ a :=
          Nat.mul_lt_mul_of_pos_right h (Nat.two_pow_pos a)
      _ = 2 ^ (Nat.log 2 k + a + 1) := by rw [← Nat.pow_add]; congr 1; omega

theorem log2_le_of_lt_pow (k b : Nat) (hk : k ≠ 0) (h : k < 2 ^ (b + 1)) : log2 k ≤ b := by
  rw [log2_eq_log]
  exact Nat.lt_succ_iff.mp (Nat.log_lt_of_lt_pow hk h)

theorem lt_pow_log2_succ (k : Nat) : k < 2 ^ (log2 k + 1) := by
  rw [log2_eq_log]
  exact Nat.lt_pow_succ_log_self (by decide) k

theorem roundHalfEven_mul (n d : Nat) (hd : 0 < d) : roundHalfEven (n * d) d = n := by
  unfold roundHalfEven
  simp only [Nat.mul_div_cancel _ hd, Nat.mul_mod_left, Nat.mul_zero]
  rw [if_neg]
  omega

theorem shiftLeft_mul_div (k den s : Nat) (hden : 0 < den) :
    ((k * den) <<< s) / den = k * 2 ^ s := by
  rw [Nat.shiftLeft_eq, Nat.mul_right_comm, Nat.mul_div_cancel _ hden]

theorem Float64.round_zero (neg : Bool) (den : Nat) :
    Float64.round neg 0 den = Float64.fin neg 0 (-1074) := by
  simp [Float64.round, roundHalfEven]

theorem Float64.round_exact (neg : Bool) (k den : Nat) (hden : 0 < den) (hk : k < 2 ^ 53) :
    (Float64.round neg (k * den) den).IsInt neg k := by
  obtain ⟨s, hs⟩ : ∃ s : Nat, s = 1074 := ⟨_, rfl⟩
  rcases Nat.eq_zero_or_pos k with hk0 | hkpos
  · subst hk0
    refine ⟨s, by omega, ?_⟩
    have hexp : (-(s : Int)) = -1074 := by omega
    rw [Nat.zero_mul, Float64.round_zero, Nat.zero_mul, hexp]
  · have hkne : k ≠ 0 := by omega
    have ht : ((k * den) <<< s) / den = k * 2 ^ s := shiftLeft_mul_div k den s hden
    have hlog : log2 k ≤ 52 := log2_le_of_lt_pow k 52 hkne hk
    have htne : k * 2 ^ s ≠ 0 := Nat.mul_ne_zero hkne (Nat.two_pow_pos s).ne'
    obtain ⟨a, ha⟩ : ∃ a : Nat, a = 52 - log2 k := ⟨_, rfl⟩
    have he : (if k * 2 ^ s = 0 then (-1074 : Int)
        else max (-1074) ((log2 (k * 2 ^ s) : Int) - 1074 - 52)) = -(a : Int) := by
      simp only [if_neg htne, log2_mul_pow k s hkne]
      push_cast
      omega
    have hm : (if (0 : Int) ≤ -(a : Int) then roundHalfEven (k * den) (den <<< (-(a : Int)).toNat)
        else roundHalfEven ((k * den) <<< (-(-(a : Int))).toNat) den) = k * 2 ^ a := by
      split_ifs with h0
      · have ha0 : a = 0 := by omega
        subst ha0
        simp [roundHalfEven_mul k den hden]
      · rw [Int.neg_neg, Int.toNat_ofNat, Nat.shiftLeft_eq, Nat.mul_right_comm,
          roundHalfEven_mul _ den hden]
    have hlt : k * 2 ^ a < 2 ^ 53 := by
      have h1 := lt_pow_log2_succ k
      calc k * 2 ^ a < 2 ^ (log2 k + 1) * 2 ^ a :=
            Nat.mul_lt_mul_of_pos_right h1 (Nat.two_pow_pos a)
        _ = 2 ^ 53 := by rw [← Nat.pow_add]; congr 1; omega
    have hne : ¬ (k * 2 ^ a = 1 <<< 53) := by
      rw [Nat.shiftLeft_eq, Nat.one_mul]
      omega
    refine ⟨a, by omega, ?_⟩
    unfold Float64.round
    rw [← hs]
    simp only [ht, he, hm, if_neg hne]
    rw [if_neg (show ¬ ((971 : Int) < -(a : Int)) by omega)]

theorem Float64.ofInt_exact (n : Int) (h : n.natAbs < 2 ^ 53) :
    (Float64.ofInt n).IsInt (decide (n < 0)) n.natAbs := by
  have hr := Float64.round_exact (decide (n < 0)) n.natAbs 1 (by decide) h
  rwa [Nat.mul_one] at hr

theorem shiftLeft_pow_cancel (k a s : Nat) (h : a ≤ s) :
    (k * 2 ^ a) <<< (s - a) = k * 2 ^ s := by
  rw [Nat.shiftLeft_eq, Nat.mul_assoc, ← Nat.pow_add]
  congr 2
  omega

theorem Float64.div_exact (x y : Float64) (s t : Bool) (k₁ k₂ q : Nat)
    (hx : x.IsInt s k₁) (hy : y.IsInt t k₂) (hk₂ : k₂ ≠ 0) (hq : k₁ = q * k₂)
    (hlt : q < 2 ^ 53) : (Float64.div x y).IsInt (xor s t) q := by
  obtain ⟨a, ha, rfl⟩ := hx
  obtain ⟨b, hb, rfl⟩ := hy
  obtain ⟨w, hw⟩ : ∃ w : Nat, w = 1074 := ⟨_, rfl⟩
  have hea : (-(a : Int) + 1074).toNat = w - a := by omega
  have heb : (-(b : Int) + 1074).toNat = w - b := by omega
  have hden : k₂ * 2 ^ b ≠ 0 := Nat.mul_ne_zero hk₂ (Nat.two_pow_pos b).ne'
  simp only [Float64.div, if_neg hden, hea, heb]
  rw [shiftLeft_pow_cancel k₁ a w (by omega), shiftLeft_pow_cancel k₂ b w (by omega), hq,
    Nat.mul_assoc]
  exact Float64.round_exact (xor s t) q (k₂ * 2 ^ w)
    (Nat.mul_pos (Nat.pos_of_ne_zero hk₂) (Nat.two_pow_pos w)) hlt

theorem Float64.mul_exact (x y : Float64) (s t : Bool) (k₁ k₂ : Nat)
    (hx : x.IsInt s k₁) (hy : y.IsInt t k₂) (hlt : k₁ * k₂ < 2 ^ 53) :
    (Float64.mul x y).IsInt (xor s t) (k₁ * k₂) := by
  obtain ⟨a, ha, rfl⟩ := hx
  obtain ⟨b, hb, rfl⟩ := hy
  obtain ⟨w, hw⟩ : ∃ w : Nat, w = 1074 := ⟨_, rfl⟩
  obtain ⟨v, hv⟩ : ∃ v : Nat, v = 2148 := ⟨_, rfl⟩
  have hea : (-(a : Int) + 1074).toNat = w - a := by omega
  have heb : (-(b : Int) + 1074).toNat = w - b := by omega
  have hnum : (k₁ * 2 ^ a * (k₂ * 2 ^ b)) <<< (w - a + (w - b)) = k₁ * k₂ * 2 ^ v := by
    rw [Nat.shiftLeft_eq]
    have e : k₁ * 2 ^ a * (k₂ * 2 ^ b) * 2 ^ (w - a + (w - b)) =
        k₁ * k₂ * (2 ^ a * 2 ^ b * 2 ^ (w - a + (w - b))) := by ring
    rw [e, ← Nat.pow_add, ← Nat.pow_add]
    congr 2
    omega
  have hden : (1 : Nat) <<< v = 2 ^ v := by rw [Nat.shiftLeft_eq, Nat.one_mul]
  simp only [Float64.mul, hea, heb]
  rw [← hv, hnum, hden]
  exact Float64.round_exact (xor s t) (k₁ * k₂) (2 ^ v) (Nat.two_pow_pos v) hlt

theorem Float64.toRat_exact (x : Float64) (s : Bool) (k : Nat) (hx : x.IsInt s k) :
    x.toRat = some ((if s then -1 else 1) * (k : ℚ)) := by
  obtain ⟨a, _, rfl⟩ := hx
  simp only [Float64.toRat, Option.some.injEq]
  push_cast
  rw [zpow_neg, zpow_natCast]
  have h2 : ((2 : ℚ) ^ a) ≠ 0 := pow_ne_zero a (by norm_num)
  field_simp

/-- The percentage of line 70 on integer totals `n` comment lines and `c > 0`
code lines, when `c` divides `n` and everything fits in 53 bits. -/
theorem percentage_of_multiple (t : Totals) (z : Int)
    (hpos : 0 < t.totalCodeLines) (hcode : t.totalCodeLines < 2 ^ 53)
    (hz : t.totalMultilineComments + t.totalSingleLineComments = t.totalCodeLines * z)
    (hsmall : 100 * |t.totalMultilineComments + t.totalSingleLineComments| < 2 ^ 53) :
    (percentageTotalComments t).toRat = some (100 * (z : ℚ)) := by
  obtain ⟨c, hc⟩ : ∃ c : Int, c = t.totalCodeLines := ⟨_, rfl⟩
  obtain ⟨n, hn⟩ : ∃ n : Int, n = t.totalMultilineComments + t.totalSingleLineComments :=
    ⟨_, rfl⟩
  rw [← hc] at hpos hcode hz
  rw [← hn] at hz hsmall
  have hzabs : |z| ≤ |n| := by
    rw [hz, abs_mul]
    have h1 : (1 : Int) ≤ |c| := by rw [abs_of_pos hpos]; omega
    nlinarith [abs_nonneg z]
  have hk₁ : n.natAbs < 2 ^ 53 := by
    have h := Int.natCast_natAbs n
    omega
  have hk₂ : c.natAbs < 2 ^ 53 := by omega
  have hq : z.natAbs * 100 < 2 ^ 53 := by
    have h1 := Int.natCast_natAbs z
    have h2 := Int.natCast_natAbs n
    omega
  have hmul : n.natAbs = z.natAbs * c.natAbs := by
    rw [hz, Int.natAbs_mul, Nat.mul_comm]
  have hdiv := Float64.div_exact _ _ _ _ n.natAbs c.natAbs z.natAbs
    (Float64.ofInt_exact n hk₁) (Float64.ofInt_exact c hk₂) (by omega) hmul (by omega)
  have hres := Float64.mul_exact _ _ _ _ z.natAbs 100 hdiv
    (Float64.ofInt_exact 100 (by decide)) hq
  have hrat := Float64.toRat_exact _ _ _ hres
  unfold percentageTotalComments
  rw [← hc, ← hn, hrat]
  have hcneg : decide (c < 0) = false := by simp; omega
  have hsign : decide (n < 0) = decide (z < 0) := by
    have : n < 0 ↔ z < 0 := by
      rw [hz]
      constructor
      · intro h
        by_contra hz0
        have : 0 ≤ c * z := Int.mul_nonneg (by omega) (by omega)
        omega
      · intro h
        exact Int.mul_neg_of_pos_of_neg hpos h
    simp [this]
  simp only [hcneg, hsign, Bool.xor_false, Option.some.injEq]
  have h100 : decide ((100 : Int) < 0) = false := by decide
  rw [h100, Bool.xor_false]
  push_cast
  by_cases hzneg : z < 0
  · simp only [hzneg, decide_True, if_true]
    have : ((z.natAbs : Int) : ℚ) = -(z : ℚ) := by
      rw [Int.ofNat_natAbs_of_nonpos (by omega)]
      push_cast
      rfl
    rw [Int.cast_natCast] at this
    rw [this]
    ring
  · simp only [hzneg, decide_False]
    have : ((z.natAbs : Int) : ℚ) = (z : ℚ) := by
      rw [Int.natAbs_of_nonneg (by omega)]
    rw [Int.cast_natCast] at this
    simp [this]
    ring

/-- A quotient by a zero is never finite: it is NaN or an infinity. -/
theorem Float64.div_zero_not_finite (x : Float64) (t : Bool) (f : Int) :
    Float64.div x (Float64.fin t 0 f) = Float64.nan ∨
      ∃ b, Float64.div x (Float64.fin t 0 f) = Float64.inf b := by
  cases x with
  | nan => exact Or.inl rfl
  | inf s => exact Or.inr ⟨xor s t, rfl⟩
  | fin s m e =>
    by_cases hm : m = 0
    · left
      simp [Float64.div, hm]
    · right
      exact ⟨xor s t, by simp [Float64.div, hm]⟩

set_option maxRecDepth 20000 in
theorem Float64.ofInt_hundred :
    Float64.ofInt 100 = Float64.fin false 7036874417766400 (-46) := by
  decide

/-- With `totalCodeLines = 0`, whatever the comment totals, line 70 yields NaN
or an infinity. -/
theorem percentage_not_finite_of_zero_code (t : Totals) (h : t.totalCodeLines = 0) :
    percentageTotalComments t = Float64.nan ∨
      ∃ b, percentageTotalComments t = Float64.inf b := by
  unfold percentageTotalComments
  have h0 : Float64.ofInt t.totalCodeLines = Float64.fin false 0 (-1074) := by
    rw [h]
    exact Float64.round_zero _ 1
  rw [h0, Float64.ofInt_hundred]
  rcases Float64.div_zero_not_finite
    (Float64.ofInt (t.totalMultilineComments + t.totalSingleLineComments)) false (-1074)
    with hn | ⟨b, hb⟩
  · rw [hn]
    exact Or.inl rfl
  · rw [hb]
    right
    exact ⟨xor b false, by simp [Float64.mul]⟩

/-! ## Rounding to nearest -/

theorem abs_mul_sub_le_of_two_mul_le (b r d : Int) (hb : 0 < b) (hr0 : 0 ≤ r)
    (h : 2 * r ≤ b) : |0 * b - r| ≤ |d * b - r| := by
  rcases le_or_lt d 0 with hd | hd
  · have hp : d * b ≤ 0 := mul_nonpos_of_nonpos_of_nonneg hd hb.le
    rw [abs_le]
    constructor
    · linarith [neg_abs_le (d * b - r), neg_le_abs (d * b - r)]
    · linarith [neg_abs_le (d * b - r), neg_le_abs (d * b - r)]
  · have hp : b ≤ d * b := le_mul_of_one_le_left hb.le hd
    rw [abs_le]
    constructor
    · linarith [le_abs_self (d * b - r)]
    · linarith [le_abs_self (d * b - r)]

theorem abs_mul_sub_le_of_le_two_mul (b r d : Int) (hb : 0 < b) (hrb : r ≤ b)
    (h : b ≤ 2 * r) : |1 * b - r| ≤ |d * b - r| := by
  rcases le_or_lt d 0 with hd | hd
  · have hp : d * b ≤ 0 := mul_nonpos_of_nonpos_of_nonneg hd hb.le
    rw [abs_le]
    constructor
    · linarith [neg_abs_le (d * b - r), neg_le_abs (d * b - r)]
    · linarith [neg_abs_le (d * b - r), neg_le_abs (d * b - r)]
  · have hp : b ≤ d * b := le_mul_of_one_le_left hb.le hd
    rw [abs_le]
    constructor
    · linarith [le_abs_self (d * b - r)]
    · linarith [le_abs_self (d * b - r)]

/-- The integer `roundHalfEven a b` is at least as near to `a / b` as any other
integer. -/
theorem roundHalfEven_nearest_int (a b : Nat) (hb : 0 < b) (j : Int) :
    |(roundHalfEven a b : Int) * b - a| ≤ |j * b - a| := by
  have hdm : b * (a / b) + a % b = a := Nat.div_add_mod a b
  have hr : a % b < b := Nat.mod_lt a hb
  obtain ⟨q, hq⟩ : ∃ q : Nat, q = a / b := ⟨_, rfl⟩
  obtain ⟨r, hr'⟩ : ∃ r : Nat, r = a % b := ⟨_, rfl⟩
  rw [← hq, ← hr'] at hdm
  rw [← hr'] at hr
  have ha : (a : Int) = b * q + r := by exact_mod_cast hdm.symm
  unfold roundHalfEven
  simp only [← hq, ← hr']
  split_ifs with hc
  · have h2 : (b : Int) ≤ 2 * r := by omega
    have := abs_mul_sub_le_of_le_two_mul b r (j - q) (by omega) (by omega) h2
    have e1 : ((q + 1 : Nat) : Int) * b - a = 1 * b - r := by rw [ha]; push_cast; ring
    have e2 : j * b - a = (j - q) * b - r := by rw [ha]; ring
    rw [e1, e2]
    exact this
  · have h2 : 2 * (r : Int) ≤ b := by omega
    have := abs_mul_sub_le_of_two_mul_le b r (j - q) (by omega) (by omega) h2
    have e1 : (q : Int) * b - a = 0 * b - r := by rw [ha]; ring
    have e2 : j * b - a = (j - q) * b - r := by rw [ha]; ring
    rw [e1, e2]
    exact this

theorem abs_sub_div_eq (u a b : ℚ) (hb : 0 < b) : |u - a / b| = |u * b - a| / b := by
  have h : u - a / b = (u * b - a) / b := by
    field_simp
  rw [h, abs_div, abs_of_pos hb]

/-- The integer `roundHalfEven a b` is at least as near to the rational
`a / b` as any other integer. -/
theorem roundHalfEven_nearest (a b : Nat) (hb : 0 < b) (j : Int) :
    |((roundHalfEven a b : Nat) : ℚ) - (a : ℚ) / b| ≤ |(j : ℚ) - (a : ℚ) / b| := by
  have hbq : (0 : ℚ) < b := by exact_mod_cast hb
  have h := roundHalfEven_nearest_int a b hb j
  have hq : |((roundHalfEven a b : Nat) : ℚ) * b - a| ≤ |(j : ℚ) * b - a| := by
    exact_mod_cast h
  rw [abs_sub_div_eq _ _ _ hbq, abs_sub_div_eq _ _ _ hbq]
  exact div_le_div_of_nonneg_right hq hbq.le

theorem roundHalfEven_le_succ (a b : Nat) : roundHalfEven a b ≤ a / b + 1 := by
  unfold roundHalfEven
  simp only
  split_ifs <;> omega

theorem floor_sub_le (a b : Nat) (hb : 0 < b) :
    (a : ℚ) / b - ((a / b : Nat) : ℚ) < 1 ∧ 0 ≤ (a : ℚ) / b - ((a / b : Nat) : ℚ) := by
  have hbq : (0 : ℚ) < b := by exact_mod_cast hb
  have hdm : b * (a / b) + a % b = a := Nat.div_add_mod a b
  have hr : a % b < b := Nat.mod_lt a hb
  have hq : (a : ℚ) = b * ((a / b : Nat) : ℚ) + ((a % b : Nat) : ℚ) := by exact_mod_cast hdm.symm
  have hrq : ((a % b : Nat) : ℚ) < b := by exact_mod_cast hr
  have hr0 : (0 : ℚ) ≤ ((a % b : Nat) : ℚ) := Nat.cast_nonneg _
  have e : (a : ℚ) / b - ((a / b : Nat) : ℚ) = ((a % b : Nat) : ℚ) / b := by
    field_simp
    linarith
  rw [e]
  exact ⟨(div_lt_one hbq).mpr hrq, div_nonneg hr0 hbq.le⟩

/-- The integer `roundHalfEven a b` is within one half of `a / b`. -/
theorem roundHalfEven_half (a b : Nat) (hb : 0 < b) :
    |((roundHalfEven a b : Nat) : ℚ) - (a : ℚ) / b| ≤ 1 / 2 := by
  obtain ⟨h1, h0⟩ := floor_sub_le a b hb
  have hlo := roundHalfEven_nearest a b hb ((a / b : Nat) : Int)
  have hhi := roundHalfEven_nearest a b hb (((a / b : Nat) : Int) + 1)
  simp only [Int.cast_natCast, Int.cast_add, Int.cast_one] at hlo hhi
  rw [abs_sub_comm ((a / b : Nat) : ℚ), abs_of_nonneg h0] at hlo
  rw [abs_of_nonneg (show (0 : ℚ) ≤ ((a / b : Nat) : ℚ) + 1 - (a : ℚ) / b by linarith)] at hhi
  linarith

/-- The steps of `Float64.round` on `num / den`: with `w = 1074`, the result has
exponent `s - w` and significand `roundHalfEven a b`, where `a / b` is
`num / den` scaled by `2 ^ (w - s)` and lies below `2 ^ 53`, and at or above
`2 ^ 52` off the subnormal range. -/
theorem Float64.round_unfold (neg : Bool) (num den w : Nat) (hden : 0 < den) (hw : w = 1074) :
    ∃ s a b : Nat, 0 < b ∧ a * 2 ^ s * den = num * 2 ^ w * b ∧
      num * 2 ^ w < den * 2 ^ (s + 53) ∧
      (0 < s → den * 2 ^ (s + 52) ≤ num * 2 ^ w) ∧
      (den * 2 ^ 52 ≤ num * 2 ^ w → den * 2 ^ (s + 52) ≤ num * 2 ^ w) ∧
      (∀ k : Nat, num < den * 2 ^ k → s + 53 ≤ k + w ∨ s = 0) ∧
      Float64.round neg num den =
        (if roundHalfEven a b = 2 ^ 53 then
          (if (971 : Int) < (s : Int) - w + 1 then Float64.inf neg
            else Float64.fin neg (2 ^ 52) ((s : Int) - w + 1))
         else
          (if (971 : Int) < (s : Int) - w then Float64.inf neg
            else Float64.fin neg (roundHalfEven a b) ((s : Int) - w))) := by
  obtain ⟨t, ht⟩ : ∃ t : Nat, t = (num <<< w) / den := ⟨_, rfl⟩
  obtain ⟨s, hs⟩ : ∃ s : Nat, s = if t = 0 then 0 else log2 t - 52 := ⟨_, rfl⟩
  have htN : t = num * 2 ^ w / den := by rw [ht, Nat.shiftLeft_eq]
  have hlo : t * den ≤ num * 2 ^ w := by
    rw [htN]
    exact Nat.div_mul_le_self _ _
  have hhi : ∀ X : Nat, t < X → num * 2 ^ w < den * X := by
    intro X hX
    rw [htN] at hX
    rw [Nat.mul_comm den X]
    exact (Nat.div_lt_iff_lt_mul hden).mp hX
  have hlog : t ≠ 0 → 2 ^ log2 t ≤ t := by
    intro h0
    rw [log2_eq_log]
    exact Nat.pow_log_le_self 2 h0
  have he : (if t = 0 then (-1074 : Int)
      else max (-1074) ((log2 t : Int) - 1074 - 52)) = (s : Int) - w := by
    rw [hs, hw]
    split_ifs with h0
    · simp
    · rw [max_def]
      split_ifs <;> omega
  have hG1 : num * 2 ^ w < den * 2 ^ (s + 53) := by
    by_cases h0 : t = 0
    · have h1 := hhi 1 (by omega)
      have h2 : 1 ≤ 2 ^ (s + 53) := Nat.one_le_two_pow
      calc num * 2 ^ w < den * 1 := h1
        _ ≤ den * 2 ^ (s + 53) := Nat.mul_le_mul_left _ h2
    · have h1 := hhi _ (lt_pow_log2_succ t)
      have h2 : log2 t + 1 ≤ s + 53 := by
        rw [hs, if_neg h0]
        omega
      calc num * 2 ^ w < den * 2 ^ (log2 t + 1) := h1
        _ ≤ den * 2 ^ (s + 53) :=
          Nat.mul_le_mul_left _ (Nat.pow_le_pow_right (by decide) h2)
  have hnorm : t ≠ 0 → 52 ≤ log2 t → den * 2 ^ (s + 52) ≤ num * 2 ^ w := by
    intro h0 h52
    have h2 : s + 52 = log2 t := by
      rw [hs, if_neg h0]
      omega
    rw [h2]
    calc den * 2 ^ log2 t ≤ den * t := Nat.mul_le_mul_left _ (hlog h0)
      _ = t * den := Nat.mul_comm _ _
      _ ≤ num * 2 ^ w := hlo
  have hG2 : 0 < s → den * 2 ^ (s + 52) ≤ num * 2 ^ w := by
    intro hpos
    have h0 : t ≠ 0 := by
      intro h0
      rw [hs, if_pos h0] at hpos
      exact absurd hpos (by decide)
    apply hnorm h0
    rw [hs, if_neg h0] at hpos
    omega
  have hG3 : den * 2 ^ 52 ≤ num * 2 ^ w → den * 2 ^ (s + 52) ≤ num * 2 ^ w := by
    intro h
    have h52 : 2 ^ 52 ≤ t := by
      rw [htN]
      exact (Nat.le_div_iff_mul_le hden).mpr (by rw [Nat.mul_comm]; exact h)
    have h0 : t ≠ 0 := by
      intro h0
      rw [h0] at h52
      exact absurd h52 (by decide)
    apply hnorm h0
    rw [log2_eq_log]
    exact (Nat.pow_le_iff_le_log (by decide) h0).mp h52
  have hG4 : ∀ k : Nat, num < den * 2 ^ k → s + 53 ≤ k + w ∨ s = 0 := by
    intro k hk
    by_cases h0 : t = 0
    · right
      rw [hs, if_pos h0]
    · left
      have h1 : t < 2 ^ (k + w) := by
        rw [htN]
        apply Nat.div_lt_of_lt_mul
        rw [Nat.pow_add, ← Nat.mul_assoc]
        exact Nat.mul_lt_mul_of_pos_right hk (Nat.two_pow_pos w)
      have h2 : 2 ^ log2 t < 2 ^ (k + w) := lt_of_le_of_lt (hlog h0) h1
      have h3 : log2 t < k + w := (Nat.pow_lt_pow_iff_right (by decide)).mp h2
      rw [hs, if_neg h0]
      omega
  obtain ⟨a, b, hb, hab, hm⟩ : ∃ a b : Nat, 0 < b ∧ a * 2 ^ s * den = num * 2 ^ w * b ∧
      (if (0 : Int) ≤ (s : Int) - w then roundHalfEven num (den <<< ((s : Int) - w).toNat)
        else roundHalfEven (num <<< (-((s : Int) - w)).toNat) den) = roundHalfEven a b := by
    split_ifs with h0
    · have hx : ((s : Int) - w).toNat = s - w := by omega
      have hp : 2 ^ s = 2 ^ (s - w) * 2 ^ w := by
        rw [← Nat.pow_add]
        congr 1
        omega
      refine ⟨num, den * 2 ^ (s - w), Nat.mul_pos hden (Nat.two_pow_pos _), ?_, ?_⟩
      · rw [hp]
        ring
      · rw [hx, Nat.shiftLeft_eq]
    · have hx : (-((s : Int) - w)).toNat = w - s := by omega
      have hp : 2 ^ w = 2 ^ (w - s) * 2 ^ s := by
        rw [← Nat.pow_add]
        congr 1
        omega
      refine ⟨num * 2 ^ (w - s), den, hden, ?_, ?_⟩
      · rw [hp]
        ring
      · rw [hx, Nat.shiftLeft_eq]
  refine ⟨s, a, b, hb, hab, hG1, hG2, hG3, hG4, ?_⟩
  have h53 : (1 : Nat) <<< 53 = 2 ^ 53 := by rw [Nat.shiftLeft_eq, Nat.one_mul]
  have h52 : (1 : Nat) <<< 52 = 2 ^ 52 := by rw [Nat.shiftLeft_eq, Nat.one_mul]
  unfold Float64.round
  rw [← hw]
  simp only [← ht, he, hm, h53, h52]
  split_ifs <;> rfl

/-- The integer `roundHalfEven a b` is at least as near to `a / b` as any
`c * 2 ^ g` with `|c| < 2 ^ 53`, provided `2 ^ 52 ≤ a / b` when `g` is
negative. -/
theorem roundHalfEven_nearest_dyadic (a b : Nat) (hb : 0 < b) (g c : Int)
    (hc : |c| < 2 ^ 53) (hnorm : g < 0 → (2 : ℚ) ^ 52 ≤ (a : ℚ) / b) :
    |((roundHalfEven a b : Nat) : ℚ) - (a : ℚ) / b| ≤ |(c : ℚ) * 2 ^ g - (a : ℚ) / b| := by
  rcases lt_or_le g 0 with hg | hg
  · have h52 := hnorm hg
    have hj := roundHalfEven_nearest a b hb (2 ^ 52)
    simp only [Int.cast_pow, Int.cast_ofNat] at hj
    rw [abs_sub_comm ((2 : ℚ) ^ 52) ((a : ℚ) / b),
      abs_of_nonneg (show (0 : ℚ) ≤ (a : ℚ) / b - 2 ^ 52 by linarith)] at hj
    have hcq : |(c : ℚ)| < 2 ^ 53 := by exact_mod_cast hc
    have hpow : (2 : ℚ) ^ g ≤ 1 / 2 := by
      have h := zpow_le_zpow_right₀ (show (1 : ℚ) ≤ 2 by norm_num) (show g ≤ -1 by omega)
      rw [zpow_neg_one] at h
      linarith
    have hpos : (0 : ℚ) < 2 ^ g := zpow_pos (by norm_num) g
    have hy : (c : ℚ) * 2 ^ g ≤ 2 ^ 52 := by
      have h1 : (c : ℚ) * 2 ^ g ≤ |(c : ℚ)| * 2 ^ g :=
        mul_le_mul_of_nonneg_right (le_abs_self _) hpos.le
      have h2 : |(c : ℚ)| * 2 ^ g ≤ 2 ^ 53 * 2 ^ g :=
        mul_le_mul_of_nonneg_right hcq.le hpos.le
      have h3 : (2 : ℚ) ^ 53 * 2 ^ g ≤ 2 ^ 53 * (1 / 2) :=
        mul_le_mul_of_nonneg_left hpow (by positivity)
      have h4 : (2 : ℚ) ^ 53 * (1 / 2) = 2 ^ 52 := by norm_num
      linarith
    have hle : (a : ℚ) / b - 2 ^ 52 ≤ |(c : ℚ) * 2 ^ g - (a : ℚ) / b| := by
      have := neg_le_abs ((c : ℚ) * 2 ^ g - (a : ℚ) / b)
      linarith
    linarith
  · obtain ⟨d, hd⟩ : ∃ d : Nat, g = d := ⟨g.toNat, by omega⟩
    have hj := roundHalfEven_nearest a b hb (c * 2 ^ d)
    simp only [Int.cast_mul, Int.cast_pow, Int.cast_ofNat] at hj
    rw [hd, zpow_natCast]
    exact hj

/-- Rounding to `float64` is rounding to nearest: for `0 ≤ num / den < 2 ^ k`
with `k ≤ 1023` the result of `Float64.round` is a finite value `m * 2 ^ e`
with `m < 2 ^ 53` and `-1074 ≤ e ≤ 971`, no value `c * 2 ^ f` with
`|c| < 2 ^ 53` and `-1074 ≤ f` is nearer to `num / den`, and off the subnormal
range the error is at most `2 ^ (-53)` times `num / den`. -/
theorem Float64.round_spec (neg : Bool) (num den k : Nat) (hden : 0 < den) (hk : k ≤ 1023)
    (hlt : num < den * 2 ^ k) :
    ∃ (m : Nat) (e : Int), Float64.round neg num den = Float64.fin neg m e ∧
      m < 2 ^ 53 ∧ -1074 ≤ e ∧ e ≤ 971 ∧
      (∀ (c f : Int), |c| < 2 ^ 53 → -1074 ≤ f →
        |(m : ℚ) * 2 ^ e - (num : ℚ) / den| ≤ |(c : ℚ) * 2 ^ f - (num : ℚ) / den|) ∧
      (∀ k' : Nat, k' ≤ 1022 → den ≤ num * 2 ^ k' →
        |(m : ℚ) * 2 ^ e - (num : ℚ) / den| * 2 ^ 53 ≤ (num : ℚ) / den) := by
  obtain ⟨w, hw⟩ : ∃ w : Nat, w = 1074 := ⟨_, rfl⟩
  obtain ⟨s, a, b, hb, hab, hG1, hG2, hG3, hG4, hround⟩ :=
    Float64.round_unfold neg num den w hden hw
  have hbq : (0 : ℚ) < b := by exact_mod_cast hb
  have hdq : (0 : ℚ) < den := by exact_mod_cast hden
  obtain ⟨e, he⟩ : ∃ e : Int, e = (s : Int) - w := ⟨_, rfl⟩
  have hEpos : (0 : ℚ) < 2 ^ e := zpow_pos (by norm_num) e
  have h2w : (0 : ℚ) < 2 ^ w := by positivity
  have hE : (2 : ℚ) ^ e * 2 ^ w = 2 ^ s := by
    rw [he, zpow_sub₀ (by norm_num), zpow_natCast, zpow_natCast]
    field_simp
  have hx : (num : ℚ) / den = (a : ℚ) / b * 2 ^ e := by
    have habq : (a : ℚ) * 2 ^ s * den = num * 2 ^ w * b := by exact_mod_cast hab
    rw [← hE] at habq
    have h1 : ((num : ℚ) * b) * 2 ^ w = ((a : ℚ) * 2 ^ e * den) * 2 ^ w := by linarith
    have h2 : (num : ℚ) * b = (a : ℚ) * 2 ^ e * den := mul_right_cancel₀ (ne_of_gt h2w) h1
    field_simp
    linarith
  have ha53 : a < b * 2 ^ 53 := by
    have h : a * (2 ^ s * den) < b * 2 ^ 53 * (2 ^ s * den) := by
      calc a * (2 ^ s * den) = num * 2 ^ w * b := by rw [← hab]; ring
        _ < den * 2 ^ (s + 53) * b := Nat.mul_lt_mul_of_pos_right hG1 hb
        _ = b * 2 ^ 53 * (2 ^ s * den) := by rw [Nat.pow_add]; ring
    exact Nat.lt_of_mul_lt_mul_right h
  have ha52 : den * 2 ^ (s + 52) ≤ num * 2 ^ w → (2 : ℚ) ^ 52 ≤ (a : ℚ) / b := by
    intro h
    have h1 : 2 ^ 52 * b * (2 ^ s * den) ≤ a * (2 ^ s * den) := by
      calc 2 ^ 52 * b * (2 ^ s * den) = den * 2 ^ (s + 52) * b := by rw [Nat.pow_add]; ring
        _ ≤ num * 2 ^ w * b := Nat.mul_le_mul_right _ h
        _ = a * (2 ^ s * den) := by rw [← hab]; ring
    have h2 : 2 ^ 52 * b ≤ a :=
      Nat.le_of_mul_le_mul_right h1 (Nat.mul_pos (Nat.two_pow_pos s) hden)
    rw [le_div_iff₀ hbq]
    exact_mod_cast h2
  have hm53 : roundHalfEven a b ≤ 2 ^ 53 := by
    have h1 := roundHalfEven_le_succ a b
    have h2 : a / b < 2 ^ 53 := Nat.div_lt_of_lt_mul ha53
    omega
  have he970 : e ≤ 970 := by
    rcases hG4 k hlt with h | h <;> omega
  have he1074 : -1074 ≤ e := by omega
  have hnear : ∀ (c f : Int), |c| < 2 ^ 53 → -1074 ≤ f →
      |((roundHalfEven a b : Nat) : ℚ) * 2 ^ e - (num : ℚ) / den| ≤
        |(c : ℚ) * 2 ^ f - (num : ℚ) / den| := by
    intro c f hc hf
    have hf2 : (2 : ℚ) ^ f = 2 ^ (f - e) * 2 ^ e := by
      rw [← zpow_add₀ (by norm_num)]
      congr 1
      omega
    have e1 : ((roundHalfEven a b : Nat) : ℚ) * 2 ^ e - (num : ℚ) / den =
        (((roundHalfEven a b : Nat) : ℚ) - (a : ℚ) / b) * 2 ^ e := by rw [hx]; ring
    have e2 : (c : ℚ) * 2 ^ f - (num : ℚ) / den =
        ((c : ℚ) * 2 ^ (f - e) - (a : ℚ) / b) * 2 ^ e := by rw [hx, hf2]; ring
    rw [e1, e2, abs_mul, abs_mul, abs_of_pos hEpos]
    refine mul_le_mul_of_nonneg_right
      (roundHalfEven_nearest_dyadic a b hb (f - e) c hc ?_) hEpos.le
    intro hneg
    exact ha52 (hG2 (by omega))
  have hrel : ∀ k' : Nat, k' ≤ 1022 → den ≤ num * 2 ^ k' →
      |((roundHalfEven a b : Nat) : ℚ) * 2 ^ e - (num : ℚ) / den| * 2 ^ 53 ≤
        (num : ℚ) / den := by
    intro k' hk' hge
    have h1 : den * 2 ^ 52 ≤ num * 2 ^ w := by
      calc den * 2 ^ 52 ≤ num * 2 ^ k' * 2 ^ 52 := Nat.mul_le_mul_right _ hge
        _ = num * 2 ^ (k' + 52) := by rw [Nat.pow_add, Nat.mul_assoc]
        _ ≤ num * 2 ^ w :=
          Nat.mul_le_mul_left _ (Nat.pow_le_pow_right (by decide) (by omega))
    have h52 := ha52 (hG3 h1)
    have hhalf := roundHalfEven_half a b hb
    have e1 : ((roundHalfEven a b : Nat) : ℚ) * 2 ^ e - (num : ℚ) / den =
        (((roundHalfEven a b : Nat) : ℚ) - (a : ℚ) / b) * 2 ^ e := by rw [hx]; ring
    rw [e1, abs_mul, abs_of_pos hEpos, hx]
    have h2 : |((roundHalfEven a b : Nat) : ℚ) - (a : ℚ) / b| * 2 ^ 53 ≤ (a : ℚ) / b := by
      have : |((roundHalfEven a b : Nat) : ℚ) - (a : ℚ) / b| * 2 ^ 53 ≤ 1 / 2 * 2 ^ 53 :=
        mul_le_mul_of_nonneg_right hhalf (by positivity)
      have h3 : (1 : ℚ) / 2 * 2 ^ 53 = 2 ^ 52 := by norm_num
      linarith
    calc |((roundHalfEven a b : Nat) : ℚ) - (a : ℚ) / b| * 2 ^ e * 2 ^ 53
        = |((roundHalfEven a b : Nat) : ℚ) - (a : ℚ) / b| * 2 ^ 53 * 2 ^ e := by ring
      _ ≤ (a : ℚ) / b * 2 ^ e := mul_le_mul_of_nonneg_right h2 hEpos.le
  rw [hround, ← he]
  by_cases hm : roundHalfEven a b = 2 ^ 53
  · rw [if_pos hm, if_neg (by omega)]
    have hv : ((2 ^ 52 : Nat) : ℚ) * 2 ^ (e + 1) = ((roundHalfEven a b : Nat) : ℚ) * 2 ^ e := by
      rw [hm, zpow_add_one₀ (by norm_num)]
      push_cast
      ring
    refine ⟨2 ^ 52, e + 1, rfl, by norm_num, by omega, by omega, ?_, ?_⟩
    · intro c f hc hf
      rw [hv]
      exact hnear c f hc hf
    · intro k' hk' hge
      rw [hv]
      exact hrel k' hk' hge
  · rw [if_neg hm, if_neg (by omega)]
    exact ⟨roundHalfEven a b, e, rfl, by omega, he1074, by omega, hnear, hrel⟩

/-- The rounding `Float64.round` of a rational `x = num / den` with
`0 ≤ x < 2 ^ k`, `k ≤ 1023`, stated on `x`. -/
theorem Float64.round_value (neg : Bool) (num den k : Nat) (x : ℚ) (hden : 0 < den)
    (hx : x = (num : ℚ) / den) (hk : k ≤ 1023) (hlt : x < 2 ^ k) :
    ∃ (m : Nat) (e : Int), Float64.round neg num den = Float64.fin neg m e ∧
      m < 2 ^ 53 ∧ -1074 ≤ e ∧ e ≤ 971 ∧
      (∀ (c f : Int), |c| < 2 ^ 53 → -1074 ≤ f →
        |(m : ℚ) * 2 ^ e - x| ≤ |(c : ℚ) * 2 ^ f - x|) ∧
      (∀ k' : Nat, k' ≤ 1022 → 1 ≤ x * 2 ^ k' → |(m : ℚ) * 2 ^ e - x| * 2 ^ 53 ≤ x) := by
  have hdq : (0 : ℚ) < den := by exact_mod_cast hden
  have hlt' : num < den * 2 ^ k := by
    rw [hx, div_lt_iff₀ hdq] at hlt
    have h : (num : ℚ) < den * 2 ^ k := by linarith
    exact_mod_cast h
  obtain ⟨m, e, hr, hm, he1, he2, hnear, hrel⟩ :=
    Float64.round_spec neg num den k hden hk hlt'
  refine ⟨m, e, hr, hm, he1, he2, ?_, ?_⟩
  · intro c f hc hf
    rw [hx]
    exact hnear c f hc hf
  · intro k' hk' hge
    rw [hx]
    apply hrel k' hk'
    rw [hx, div_mul_eq_mul_div, le_div_iff₀ hdq] at hge
    have h : (den : ℚ) ≤ num * 2 ^ k' := by linarith
    exact_mod_cast h

/-- The quotient of two integer-valued operands is the rounding of the
quotient of the integers. -/
theorem Float64.div_of_IsInt (x y : Float64) (s t : Bool) (k₁ k₂ : Nat)
    (hx : x.IsInt s k₁) (hy : y.IsInt t k₂) (hk₂ : k₂ ≠ 0) :
    ∃ w : Nat, Float64.div x y = Float64.round (xor s t) (k₁ * 2 ^ w) (k₂ * 2 ^ w) := by
  obtain ⟨a, ha, rfl⟩ := hx
  obtain ⟨b, hb, rfl⟩ := hy
  obtain ⟨w, hw⟩ : ∃ w : Nat, w = 1074 := ⟨_, rfl⟩
  have hea : (-(a : Int) + 1074).toNat = w - a := by omega
  have heb : (-(b : Int) + 1074).toNat = w - b := by omega
  have hden : k₂ * 2 ^ b ≠ 0 := Nat.mul_ne_zero hk₂ (Nat.two_pow_pos b).ne'
  refine ⟨w, ?_⟩
  simp only [Float64.div, if_neg hden, hea, heb]
  rw [shiftLeft_pow_cancel k₁ a w (by omega), shiftLeft_pow_cancel k₂ b w (by omega)]

/-- The product with `float64(100)` is the rounding of 100 times the value. -/
theorem Float64.mul_hundred (s : Bool) (m : Nat) (e : Int) (he : -1074 ≤ e) :
    ∃ num den : Nat, 0 < den ∧ (num : ℚ) / den = (m : ℚ) * 2 ^ e * 100 ∧
      Float64.mul (Float64.fin s m e) (Float64.ofInt 100) = Float64.round s num den := by
  rw [Float64.ofInt_hundred]
  obtain ⟨u, hu⟩ : ∃ u : Nat, (u : Int) = e + 1074 := ⟨(e + 1074).toNat, by omega⟩
  obtain ⟨v, hv⟩ : ∃ v : Nat, v = 1028 := ⟨_, rfl⟩
  obtain ⟨z, hz⟩ : ∃ z : Nat, z = 2148 := ⟨_, rfl⟩
  refine ⟨(m * 7036874417766400) * 2 ^ (u + v), 2 ^ z, Nat.two_pow_pos z, ?_, ?_⟩
  · have h1 : (2 : ℚ) ^ (u + v) / 2 ^ z = 2 ^ (e - 46) := by
      rw [← zpow_natCast, ← zpow_natCast, ← zpow_sub₀ (by norm_num)]
      congr 1
      push_cast
      omega
    have h2 : (2 : ℚ) ^ (e - 46) = 2 ^ e / 2 ^ (46 : Nat) := by
      rw [zpow_sub₀ (by norm_num)]
      congr 1
      exact zpow_natCast 2 46
    push_cast
    rw [mul_div_assoc, h1, h2]
    norm_num
    ring
  · have hea : (e + 1074).toNat = u := by omega
    have heb : ((-46 : Int) + 1074).toNat = v := by omega
    simp only [Float64.mul, Bool.xor_false, hea, heb]
    rw [← hz, Nat.shiftLeft_eq, Nat.shiftLeft_eq, Nat.one_mul]

theorem Float64.Representable.neg (v : ℚ) (h : Float64.Representable v) :
    Float64.Representable (-v) := by
  obtain ⟨c, f, hc, hf, rfl⟩ := h
  exact ⟨-c, f, by rwa [abs_neg], hf, by push_cast; ring⟩

/-- The quotient and the percentage of line 70 on operands standing for the
natural numbers `k₁ < 2 ^ 53` and `0 < k₂ < 2 ^ 53`: both are finite, of
representable magnitudes `q` and `p`; `q` is nearest to `k₁ / k₂` and `p`
nearest to `100 * q` among the representable values, each with a relative
error of at most `2 ^ (-53)`. -/
theorem Float64.percentage_nearest (x y : Float64) (s : Bool) (k₁ k₂ : Nat)
    (hx : x.IsInt s k₁) (hy : y.IsInt false k₂) (hk₁ : k₁ < 2 ^ 53) (hk₂ : k₂ < 2 ^ 53)
    (hpos : 0 < k₂) :
    ∃ q p : ℚ, 0 ≤ q ∧ 0 ≤ p ∧ Float64.Representable q ∧ Float64.Representable p ∧
      (Float64.div x y).toRat = some ((if s then -1 else 1) * q) ∧
      (Float64.mul (Float64.div x y) (Float64.ofInt 100)).toRat =
        some ((if s then -1 else 1) * p) ∧
      (∀ v, Float64.Representable v → |q - (k₁ : ℚ) / k₂| ≤ |v - (k₁ : ℚ) / k₂|) ∧
      (∀ v, Float64.Representable v → |p - 100 * q| ≤ |v - 100 * q|) ∧
      |q - (k₁ : ℚ) / k₂| * 2 ^ 53 ≤ (k₁ : ℚ) / k₂ ∧
      |p - 100 * q| * 2 ^ 53 ≤ 100 * q := by
  obtain ⟨w, hdiv⟩ := Float64.div_of_IsInt x y s false k₁ k₂ hx hy (by omega)
  rw [Bool.xor_false] at hdiv
  have hk₂q : (0 : ℚ) < k₂ := by exact_mod_cast hpos
  have hk₁q : (k₁ : ℚ) < 2 ^ 53 := by exact_mod_cast hk₁
  have hk₂lt : (k₂ : ℚ) < 2 ^ 53 := by exact_mod_cast hk₂
  have hk₂one : (1 : ℚ) ≤ k₂ := by exact_mod_cast hpos
  have hX : (k₁ : ℚ) / k₂ = ((k₁ * 2 ^ w : Nat) : ℚ) / ((k₂ * 2 ^ w : Nat) : ℚ) := by
    push_cast
    rw [mul_div_mul_right _ _ (by positivity)]
  have hXlt : (k₁ : ℚ) / k₂ < 2 ^ 53 := by
    rw [div_lt_iff₀ hk₂q]
    nlinarith
  have hX0 : (0 : ℚ) ≤ (k₁ : ℚ) / k₂ := by positivity
  obtain ⟨m, e, hr, hm, he1, he2, hnear, hrel⟩ :=
    Float64.round_value s (k₁ * 2 ^ w) (k₂ * 2 ^ w) 53 ((k₁ : ℚ) / k₂)
      (Nat.mul_pos hpos (Nat.two_pow_pos w)) hX (by norm_num) hXlt
  have hq0 : (0 : ℚ) ≤ (m : ℚ) * 2 ^ e := by positivity
  have hq53 : (m : ℚ) * 2 ^ e ≤ 2 ^ 53 := by
    have h := hnear 1 53 (by norm_num) (by norm_num)
    have h2 : ((1 : Int) : ℚ) * 2 ^ (53 : Int) = 2 ^ 53 := by norm_num
    rw [h2, abs_of_nonneg (show (0 : ℚ) ≤ 2 ^ 53 - (k₁ : ℚ) / k₂ by linarith)] at h
    have h3 := le_abs_self ((m : ℚ) * 2 ^ e - (k₁ : ℚ) / k₂)
    linarith
  obtain ⟨num, den, hden, hratio, hmul⟩ := Float64.mul_hundred s m e he1
  obtain ⟨m', e', hr', hm', he1', he2', hnear', hrel'⟩ :=
    Float64.round_value s num den 60 ((m : ℚ) * 2 ^ e * 100) hden hratio.symm (by norm_num)
      (by norm_num at hq53 ⊢; linarith)
  have hp0 : (0 : ℚ) ≤ (m' : ℚ) * 2 ^ e' := by positivity
  have hrelq : |(m : ℚ) * 2 ^ e - (k₁ : ℚ) / k₂| * 2 ^ 53 ≤ (k₁ : ℚ) / k₂ := by
    rcases Nat.eq_zero_or_pos k₁ with h0 | h1
    · have h := hnear 0 0 (by norm_num) (by norm_num)
      rw [h0] at h ⊢
      simp only [Nat.cast_zero, zero_div, sub_zero, Int.cast_zero, zero_mul, abs_zero] at h ⊢
      have := abs_nonneg ((m : ℚ) * 2 ^ e)
      have h2 : |(m : ℚ) * 2 ^ e| = 0 := le_antisymm h this
      rw [h2]
      norm_num
    · apply hrel 53 (by norm_num)
      have hk₁one : (1 : ℚ) ≤ k₁ := by exact_mod_cast h1
      rw [div_mul_eq_mul_div, le_div_iff₀ hk₂q]
      nlinarith
  have hrelp : |(m' : ℚ) * 2 ^ e' - 100 * ((m : ℚ) * 2 ^ e)| * 2 ^ 53 ≤
      100 * ((m : ℚ) * 2 ^ e) := by
    have e1 : 100 * ((m : ℚ) * 2 ^ e) = (m : ℚ) * 2 ^ e * 100 := by ring
    rw [e1]
    rcases Nat.eq_zero_or_pos k₁ with h0 | h1
    · have hq : (m : ℚ) * 2 ^ e = 0 := by
        have h := hnear 0 0 (by norm_num) (by norm_num)
        rw [h0] at h
        simp only [Nat.cast_zero, zero_div, sub_zero, Int.cast_zero, zero_mul, abs_zero] at h
        exact abs_eq_zero.mp (le_antisymm h (abs_nonneg _))
      have h := hnear' 0 0 (by norm_num) (by norm_num)
      rw [hq] at h ⊢
      simp only [zero_mul, sub_zero, Int.cast_zero, abs_zero] at h ⊢
      have h2 : |(m' : ℚ) * 2 ^ e'| = 0 := le_antisymm h (abs_nonneg _)
      rw [h2]
      norm_num
    · apply hrel' 54 (by norm_num)
      have hk₁one : (1 : ℚ) ≤ k₁ := by exact_mod_cast h1
      have hXlow : (1 : ℚ) ≤ (k₁ : ℚ) / k₂ * 2 ^ 53 := by
        rw [div_mul_eq_mul_div, le_div_iff₀ hk₂q]
        nlinarith
      have hlow := neg_abs_le ((m : ℚ) * 2 ^ e - (k₁ : ℚ) / k₂)
      nlinarith
  have hrepr : ∀ (m₀ : Nat) (e₀ : Int), m₀ < 2 ^ 53 → -1074 ≤ e₀ →
      Float64.Representable ((m₀ : ℚ) * 2 ^ e₀) := by
    intro m₀ e₀ h1 h2
    refine ⟨(m₀ : Int), e₀, ?_, h2, by rw [Int.cast_natCast]⟩
    rw [abs_of_nonneg (Int.natCast_nonneg m₀)]
    exact_mod_cast h1
  refine ⟨(m : ℚ) * 2 ^ e, (m' : ℚ) * 2 ^ e', hq0, hp0, hrepr m e hm he1,
    hrepr m' e' hm' he1', ?_, ?_, ?_, ?_, hrelq, hrelp⟩
  · rw [hdiv, hr]
    simp only [Float64.toRat, mul_assoc]
  · rw [hdiv, hr, hmul, hr']
    simp only [Float64.toRat, mul_assoc]
  · rintro v ⟨c, f, hc, hf, rfl⟩
    exact hnear c f hc hf
  · rintro v ⟨c, f, hc, hf, rfl⟩
    have e1 : 100 * ((m : ℚ) * 2 ^ e) = (m : ℚ) * 2 ^ e * 100 := by ring
    rw [e1]
    exact hnear' c f hc hf

theorem abs_sign_mul_sub (σ a b : ℚ) (hσ : σ = 1 ∨ σ = -1) :
    |σ * a - σ * b| = |a - b| := by
  rcases hσ with h | h <;> subst h
  · simp
  · rw [show (-1 : ℚ) * a - -1 * b = -(a - b) by ring, abs_neg]

theorem abs_sub_sign_mul (σ v b : ℚ) (hσ : σ = 1 ∨ σ = -1) :
    |v - σ * b| = |σ * v - b| := by
  rcases hσ with h | h <;> subst h
  · simp
  · rw [show v - -1 * b = -(-1 * v - b) by ring, abs_neg]

theorem Float64.Representable.sign_mul (σ v : ℚ) (hσ : σ = 1 ∨ σ = -1)
    (h : Float64.Representable v) : Float64.Representable (σ * v) := by
  rcases hσ with h1 | h1 <;> subst h1
  · simpa using h
  · simpa using h.neg

/-- The percentage of line 70 on totals with `0 < totalCodeLines < 2 ^ 53` and
a comment total of magnitude below `2 ^ 53`: quotient and percentage are
finite and representable, each nearest to the exact result of its operation
among the representable values, and the percentage is within a relative error
of `2 ^ (-52) + 2 ^ (-106)` of the exact rational. -/
theorem percentage_nearest_of_totals (t : Totals)
    (hpos : 0 < t.totalCodeLines) (hcode : t.totalCodeLines < 2 ^ 53)
    (hcom : |t.totalMultilineComments + t.totalSingleLineComments| < 2 ^ 53) :
    ∃ q p : ℚ,
      (Float64.div (Float64.ofInt (t.totalMultilineComments + t.totalSingleLineComments))
        (Float64.ofInt t.totalCodeLines)).toRat = some q ∧
      (percentageTotalComments t).toRat = some p ∧
      Float64.Representable q ∧ Float64.Representable p ∧
      (∀ v, Float64.Representable v →
        |q - ((t.totalMultilineComments + t.totalSingleLineComments : Int) : ℚ) /
            (t.totalCodeLines : ℚ)| ≤
          |v - ((t.totalMultilineComments + t.totalSingleLineComments : Int) : ℚ) /
            (t.totalCodeLines : ℚ)|) ∧
      (∀ v, Float64.Representable v → |p - 100 * q| ≤ |v - 100 * q|) ∧
      |p - 100 * ((t.totalMultilineComments + t.totalSingleLineComments : Int) : ℚ) /
          (t.totalCodeLines : ℚ)| * 2 ^ 106 ≤
        100 * |((t.totalMultilineComments + t.totalSingleLineComments : Int) : ℚ)| /
          (t.totalCodeLines : ℚ) * (2 ^ 54 + 1) := by
  unfold percentageTotalComments
  obtain ⟨c, hc⟩ : ∃ c : Int, c = t.totalCodeLines := ⟨_, rfl⟩
  obtain ⟨n, hn⟩ : ∃ n : Int, n = t.totalMultilineComments + t.totalSingleLineComments :=
    ⟨_, rfl⟩
  rw [← hc] at hpos hcode
  rw [← hn] at hcom
  rw [← hc, ← hn]
  have hk₁ : n.natAbs < 2 ^ 53 := by
    have h := Int.natCast_natAbs n
    omega
  have hk₂ : c.natAbs < 2 ^ 53 := by omega
  have hcneg : decide (c < 0) = false := by simp; omega
  have hy := Float64.ofInt_exact c hk₂
  rw [hcneg] at hy
  obtain ⟨q, p, hq0, hp0, hqr, hpr, hdiv, hmul, hnq, hnp, hrq, hrp⟩ :=
    Float64.percentage_nearest _ _ _ n.natAbs c.natAbs (Float64.ofInt_exact n hk₁) hy hk₁ hk₂
      (by omega)
  obtain ⟨σ, hσdef⟩ : ∃ σ : ℚ, σ = if decide (n < 0) = true then -1 else 1 := ⟨_, rfl⟩
  rw [← hσdef] at hdiv hmul
  have hσ : σ = 1 ∨ σ = -1 := by
    rw [hσdef]
    split_ifs
    · exact Or.inr rfl
    · exact Or.inl rfl
  have hcq : (c : ℚ) = (c.natAbs : ℚ) := by
    have h : (c.natAbs : Int) = c := by omega
    rw [← Int.cast_natCast, h]
  have hnq' : (n : ℚ) = σ * (n.natAbs : ℚ) := by
    rw [hσdef]
    by_cases h : n < 0
    · have h2 : (n : Int) = -(n.natAbs : Int) := by omega
      simp only [h, decide_True, if_true]
      rw [neg_one_mul]
      exact_mod_cast h2
    · have h2 : (n.natAbs : Int) = n := by omega
      simp only [h, decide_False, Bool.false_eq_true, if_false, one_mul]
      rw [← Int.cast_natCast, h2]
  have habs : |(n : ℚ)| = (n.natAbs : ℚ) := by
    rw [hnq', abs_mul]
    rcases hσ with h | h <;> subst h <;> simp
  have hX : (n : ℚ) / c = σ * ((n.natAbs : ℚ) / c.natAbs) := by
    rw [hnq', hcq, mul_div_assoc]
  have hX100 : 100 * (n : ℚ) / c = σ * (100 * ((n.natAbs : ℚ) / c.natAbs)) := by
    rw [hnq', hcq]
    ring
  refine ⟨σ * q, σ * p, hdiv, hmul, Float64.Representable.sign_mul σ q hσ hqr,
    Float64.Representable.sign_mul σ p hσ hpr, ?_, ?_, ?_⟩
  · intro v hv
    rw [hX, abs_sign_mul_sub _ _ _ hσ, abs_sub_sign_mul _ _ _ hσ]
    exact hnq _ (Float64.Representable.sign_mul σ v hσ hv)
  · intro v hv
    rw [show 100 * (σ * q) = σ * (100 * q) by ring, abs_sign_mul_sub _ _ _ hσ,
      abs_sub_sign_mul _ _ _ hσ]
    exact hnp _ (Float64.Representable.sign_mul σ v hσ hv)
  · rw [hX100, abs_sign_mul_sub _ _ _ hσ, habs, hcq]
    have htri : |p - 100 * ((n.natAbs : ℚ) / c.natAbs)| ≤
        |p - 100 * q| + 100 * |q - (n.natAbs : ℚ) / c.natAbs| := by
      have h1 : p - 100 * ((n.natAbs : ℚ) / c.natAbs) =
          (p - 100 * q) + 100 * (q - (n.natAbs : ℚ) / c.natAbs) := by ring
      rw [h1]
      refine (abs_add _ _).trans ?_
      rw [abs_mul]
      norm_num
    have hqle := le_abs_self (q - (n.natAbs : ℚ) / c.natAbs)
    have e1 : 100 * (n.natAbs : ℚ) / c.natAbs = 100 * ((n.natAbs : ℚ) / c.natAbs) := by ring
    rw [e1]
    norm_num at hrq hrp ⊢
    linarith

/-! ## Claims on the percentage -/

set_option maxRecDepth 20000 in
/-- C8: with `totalCodeLines = 0` the code of line 70 still evaluates the
quotient: for the empty result list the percentage is NaN, and for a single
all-comment file (0 code lines, 5 comment lines) it is `+Inf`; no zero or
flagged value is substituted. -/
theorem percentage_zero_code_lines_unguarded :
    (aggregate []).totalCodeLines = 0 ∧
    percentageTotalComments (aggregate []) = Float64.nan ∧
    (aggregate [{ FilePath := "c.ts", CodeLines := 0, MultilineComments := 3,
                  SingleLineComments := 2, Error := none }]).totalCodeLines = 0 ∧
    percentageTotalComments
      (aggregate [{ FilePath := "c.ts", CodeLines := 0, MultilineComments := 3,
                    SingleLineComments := 2, Error := none }]) = Float64.inf false := by
  decide

set_option maxRecDepth 20000 in
/-- C10, as stated, fails: for one file with 3 code lines and 1 comment line
`totalCodeLines > 0`, but the `float64` percentage is
`4691249611844266 * 2^(-47)`, not the rational `100 * 1 / 3`. -/
theorem percentage_one_third_not_exact :
    0 < (aggregate [{ FilePath := "a.ts", CodeLines := 3, MultilineComments := 0,
                      SingleLineComments := 1, Error := none }]).totalCodeLines ∧
    (percentageTotalComments
      (aggregate [{ FilePath := "a.ts", CodeLines := 3, MultilineComments := 0,
                    SingleLineComments := 1, Error := none }])).toRat ≠
      some (100 * (((0 : Int) + 1 : Int) : ℚ) / ((3 : Int) : ℚ)) := by
  have hp : percentageTotalComments
      (aggregate [{ FilePath := "a.ts", CodeLines := 3, MultilineComments := 0,
                    SingleLineComments := 1, Error := none }]) =
      Float64.fin false 4691249611844266 (-47) := by decide
  refine ⟨by decide, ?_⟩
  rw [hp]
  simp only [Float64.toRat, ne_eq, Option.some.injEq]
  norm_num

set_option maxRecDepth 20000 in
/-- C10, amended: when `totalCodeLines` is positive and below `2^53` and the
comment total `totalMultilineComments + totalSingleLineComments` is below
`2^53` in magnitude, the quotient and the percentage of `main` are finite
`float64` values `q` and `p`, hence representable; no representable value is
nearer to the exact quotient than `q`, and none is nearer to `100 * q` than
`p`; `p` differs from the rational `100 * (comment total) / totalCodeLines` by
at most `2^(-52) + 2^(-106)` times its magnitude; and `p` is exactly that
rational whenever the exact quotient and the exact percentage are both
representable.  In particular one file with 5 code lines and no comments and
one file with 5 comment lines and no code give `totalCodeLines = 5`, comment
total 5 and percentage 100; and 1 comment line on 5 code lines gives
`5629499534213120 * 2^(-48)`, which is exactly 20: there the quotient is
rounded up and the product back down, `1 / 5` not being representable. -/
theorem percentage_correctly_rounded (results : List FileResult)
    (hpos : 0 < (aggregate results).totalCodeLines)
    (hcode : (aggregate results).totalCodeLines < 2 ^ 53)
    (hcom : |(aggregate results).totalMultilineComments +
      (aggregate results).totalSingleLineComments| < 2 ^ 53) :
    (∃ q p : ℚ,
      (Float64.div
        (Float64.ofInt ((aggregate results).totalMultilineComments +
          (aggregate results).totalSingleLineComments))
        (Float64.ofInt (aggregate results).totalCodeLines)).toRat = some q ∧
      (percentageTotalComments (aggregate results)).toRat = some p ∧
      Float64.Representable q ∧ Float64.Representable p ∧
      (∀ v, Float64.Representable v →
        |q - (((aggregate results).totalMultilineComments +
              (aggregate results).totalSingleLineComments : Int) : ℚ) /
            ((aggregate results).totalCodeLines : ℚ)| ≤
          |v - (((aggregate results).totalMultilineComments +
              (aggregate results).totalSingleLineComments : Int) : ℚ) /
            ((aggregate results).totalCodeLines : ℚ)|) ∧
      (∀ v, Float64.Representable v → |p - 100 * q| ≤ |v - 100 * q|) ∧
      |p - 100 * (((aggregate results).totalMultilineComments +
            (aggregate results).totalSingleLineComments : Int) : ℚ) /
          ((aggregate results).totalCodeLines : ℚ)| * 2 ^ 106 ≤
        100 * |(((aggregate results).totalMultilineComments +
            (aggregate results).totalSingleLineComments : Int) : ℚ)| /
          ((aggregate results).totalCodeLines : ℚ) * (2 ^ 54 + 1)) ∧
    (Float64.Representable
        ((((aggregate results).totalMultilineComments +
            (aggregate results).totalSingleLineComments : Int) : ℚ) /
          ((aggregate results).totalCodeLines : ℚ)) →
      Float64.Representable
        (100 * (((aggregate results).totalMultilineComments +
            (aggregate results).totalSingleLineComments : Int) : ℚ) /
          ((aggregate results).totalCodeLines : ℚ)) →
      (percentageTotalComments (aggregate results)).toRat =
        some (100 *
          (((aggregate results).totalMultilineComments +
            (aggregate results).totalSingleLineComments : Int) : ℚ) /
          ((aggregate results).totalCodeLines : ℚ))) ∧
    (aggregate [{ FilePath := "code.ts", CodeLines := 5, MultilineComments := 0,
                  SingleLineComments := 0, Error := none },
                { FilePath := "comments.ts", CodeLines := 0, MultilineComments := 3,
                  SingleLineComments := 2, Error := none }]).totalCodeLines = 5 ∧
    (aggregate [{ FilePath := "code.ts", CodeLines := 5, MultilineComments := 0,
                  SingleLineComments := 0, Error := none },
                { FilePath := "comments.ts", CodeLines := 0, MultilineComments := 3,
                  SingleLineComments := 2, Error := none }]).totalMultilineComments +
      (aggregate [{ FilePath := "code.ts", CodeLines := 5, MultilineComments := 0,
                    SingleLineComments := 0, Error := none },
                  { FilePath := "comments.ts", CodeLines := 0, MultilineComments := 3,
                    SingleLineComments := 2, Error := none }]).totalSingleLineComments = 5 ∧
    percentageTotalComments
      (aggregate [{ FilePath := "code.ts", CodeLines := 5, MultilineComments := 0,
                    SingleLineComments := 0, Error := none },
                  { FilePath := "comments.ts", CodeLines := 0, MultilineComments := 3,
                    SingleLineComments := 2, Error := none }]) = Float64.ofInt 100 ∧
    percentageTotalComments
      (aggregate [{ FilePath := "a.ts", CodeLines := 5, MultilineComments := 0,
                    SingleLineComments := 1, Error := none }]) =
        Float64.fin false 5629499534213120 (-48) ∧
    (Float64.fin false 5629499534213120 (-48)).toRat = some 20 := by
  have h := percentage_nearest_of_totals (aggregate results) hpos hcode hcom
  refine ⟨h, ?_, by decide, by decide, by decide, by decide, ?_⟩
  · obtain ⟨q, p, _, hp, _, _, hnq, hnp, _⟩ := h
    intro hr₁ hr₂
    have hq := hnq _ hr₁
    rw [sub_self, abs_zero] at hq
    have hq' := sub_eq_zero.mp (abs_eq_zero.mp (le_antisymm hq (abs_nonneg _)))
    have hp' := hnp _ hr₂
    rw [hq', mul_div_assoc, sub_self, abs_zero] at hp'
    have hp'' := sub_eq_zero.mp (abs_eq_zero.mp (le_antisymm hp' (abs_nonneg _)))
    rw [hp, hp'', mul_div_assoc]
  · simp only [Float64.toRat, Bool.false_eq_true, if_false, Option.some.injEq]
    norm_num

set_option maxRecDepth 20000 in
theorem percentage_correctly_rounded_witness :
    (percentageTotalComments
      (aggregate [{ FilePath := "a.ts", CodeLines := 2, MultilineComments := 0,
                    SingleLineComments := 1, Error := none }])).toRat = some 50 ∧
    (percentageTotalComments
      (aggregate [{ FilePath := "a.ts", CodeLines := 8, MultilineComments := 1,
                    SingleLineComments := 2, Error := none }])).toRat = some (75 / 2) :=
  ⟨((percentage_correctly_rounded
      [{ FilePath := "a.ts", CodeLines := 2, MultilineComments := 0,
         SingleLineComments := 1, Error := none }]
      (by decide) (by decide) (by decide)).2.1
      ⟨1, -1, by norm_num, by norm_num, (by
        have hn :
            (aggregate [{ FilePath := "a.ts", CodeLines := 2, MultilineComments := 0,
                          SingleLineComments := 1, Error := none }]).totalMultilineComments +
            (aggregate [{ FilePath := "a.ts", CodeLines := 2, MultilineComments := 0,
                          SingleLineComments := 1, Error := none }]).totalSingleLineComments = 1 := by
          decide
        have hc :
            (aggregate [{ FilePath := "a.ts", CodeLines := 2, MultilineComments := 0,
                          SingleLineComments := 1, Error := none }]).totalCodeLines = 2 := by
          decide
        rw [hn, hc]
        norm_num)⟩
      ⟨25, 1, by norm_num, by norm_num, (by
        have hn :
            (aggregate [{ FilePath := "a.ts", CodeLines := 2, MultilineComments := 0,
                          SingleLineComments := 1, Error := none }]).totalMultilineComments +
            (aggregate [{ FilePath := "a.ts", CodeLines := 2, MultilineComments := 0,
                          SingleLineComments := 1, Error := none }]).totalSingleLineComments = 1 := by
          decide
        have hc :
            (aggregate [{ FilePath := "a.ts", CodeLines := 2, MultilineComments := 0,
                          SingleLineComments := 1, Error := none }]).totalCodeLines = 2 := by
          decide
        rw [hn, hc]
        norm_num)⟩).trans
      (by
        have hn :
            (aggregate [{ FilePath := "a.ts", CodeLines := 2, MultilineComments := 0,
                          SingleLineComments := 1, Error := none }]).totalMultilineComments +
            (aggregate [{ FilePath := "a.ts", CodeLines := 2, MultilineComments := 0,
                          SingleLineComments := 1, Error := none }]).totalSingleLineComments = 1 := by
          decide
        have hc :
            (aggregate [{ FilePath := "a.ts", CodeLines := 2, MultilineComments := 0,
                          SingleLineComments := 1, Error := none }]).totalCodeLines = 2 := by
          decide
        rw [hn, hc]
        norm_num),
   ((percentage_correctly_rounded
      [{ FilePath := "a.ts", CodeLines := 8, MultilineComments := 1,
         SingleLineComments := 2, Error := none }]
      (by decide) (by decide) (by decide)).2.1
      ⟨3, -3, by norm_num, by norm_num, (by
        have hn :
            (aggregate [{ FilePath := "a.ts", CodeLines := 8, MultilineComments := 1,
                          SingleLineComments := 2, Error := none }]).totalMultilineComments +
            (aggregate [{ FilePath := "a.ts", CodeLines := 8, MultilineComments := 1,
                          SingleLineComments := 2, Error := none }]).totalSingleLineComments = 3 := by
          decide
        have hc :
            (aggregate [{ FilePath := "a.ts", CodeLines := 8, MultilineComments := 1,
                          SingleLineComments := 2, Error := none }]).totalCodeLines = 8 := by
          decide
        rw [hn, hc]
        norm_num)⟩
      ⟨75, -1, by norm_num, by norm_num, (by
        have hn :
            (aggregate [{ FilePath := "a.ts", CodeLines := 8, MultilineComments := 1,
                          SingleLineComments := 2, Error := none }]).totalMultilineComments +
            (aggregate [{ FilePath := "a.ts", CodeLines := 8, MultilineComments := 1,
                          SingleLineComments := 2, Error := none }]).totalSingleLineComments = 3 := by
          decide
        have hc :
            (aggregate [{ FilePath := "a.ts", CodeLines := 8, MultilineComments := 1,
                          SingleLineComments := 2, Error := none }]).totalCodeLines = 8 := by
          decide
        rw [hn, hc]
        norm_num)⟩).trans
      (by
        have hn :
            (aggregate [{ FilePath := "a.ts", CodeLines := 8, MultilineComments := 1,
                          SingleLineComments := 2, Error := none }]).totalMultilineComments +
            (aggregate [{ FilePath := "a.ts", CodeLines := 8, MultilineComments := 1,
                          SingleLineComments := 2, Error := none }]).totalSingleLineComments = 3 := by
          decide
        have hc :
            (aggregate [{ FilePath := "a.ts", CodeLines := 8, MultilineComments := 1,
                          SingleLineComments := 2, Error := none }]).totalCodeLines = 8 := by
          decide
        rw [hn, hc]
        norm_num)⟩

theorem analyzeFile_ok (fs : FileSystem) (filePath : String) (lines : List String)
    (hfile : fs filePath = .ok lines) :
    analyzeFile fs filePath =
      ((scanLines lines).codeLines, (scanLines lines).multilineCommentLines,
        (scanLines lines).singleLineCommentLines, none) := by
  simp only [analyzeFile, hfile, ScanState.codeLines]

theorem analyzeFile_error (fs : FileSystem) (filePath : String) (err : GoError)
    (hfile : fs filePath = .error err) :
    analyzeFile fs filePath = (0, 0, 0, some err) := by
  simp only [analyzeFile, hfile]

theorem stateAfter_length (lines : List String) :
    stateAfter lines lines.length = scanLines lines := by
  simp [stateAfter]

theorem stateAfter_zero (lines : List String) : stateAfter lines 0 = ScanState.init := by
  simp [stateAfter, scanLines, scanFrom]

/-- C12: the block-comment part of one loop iteration is the transition table
of the specification: opener only counts the line and sets the state inside;
closer only counts the line exactly when the state was inside and leaves the
state outside; neither marker counts the line exactly when the state was inside
and keeps the state; so the line is counted iff it has an opener or the state
was inside. -/
theorem scanLine_block_transition (st : ScanState) (line : String) :
    ((scanLine st line).multilineCommentLines =
        st.multilineCommentLines +
          (if (specBlockTransition (strings.Contains line openComment)
                (strings.Contains line closeComment) st.inMultilineComment).1 = true
           then 1 else 0) ∧
      (scanLine st line).inMultilineComment =
        (specBlockTransition (strings.Contains line openComment)
          (strings.Contains line closeComment) st.inMultilineComment).2) ∧
    (strings.Contains line openComment = true → strings.Contains line closeComment = false →
      (scanLine st line).multilineCommentLines = st.multilineCommentLines + 1 ∧
      (scanLine st line).inMultilineComment = true) ∧
    (strings.Contains line openComment = false → strings.Contains line closeComment = true →
      ((scanLine st line).multilineCommentLines = st.multilineCommentLines + 1 ↔
        st.inMultilineComment = true) ∧
      (scanLine st line).inMultilineComment = false) ∧
    (strings.Contains line openComment = false → strings.Contains line closeComment = false →
      ((scanLine st line).multilineCommentLines = st.multilineCommentLines + 1 ↔
        st.inMultilineComment = true) ∧
      (scanLine st line).inMultilineComment = st.inMultilineComment) ∧
    ((scanLine st line).multilineCommentLines = st.multilineCommentLines + 1 ↔
      (strings.Contains line openComment = true ∨ st.inMultilineComment = true)) := by
  rw [scanLine_multi, scanLine_in]
  cases strings.Contains line openComment <;> cases strings.Contains line closeComment <;>
    cases st.inMultilineComment <;> simp [specBlockTransition]

theorem scanLine_block_transition_witness :
    (scanLine { lineNumber := 7, multilineCommentLines := 3, singleLineCommentLines := 1,
                inMultilineComment := true } "end */ x").multilineCommentLines = 3 + 1 ∧
    (scanLine { lineNumber := 7, multilineCommentLines := 3, singleLineCommentLines := 1,
                inMultilineComment := true } "end */ x").inMultilineComment = false :=
  ⟨((scanLine_block_transition
      { lineNumber := 7, multilineCommentLines := 3, singleLineCommentLines := 1,
        inMultilineComment := true } "end */ x").2.2.1 (by decide) (by decide)).1.mpr rfl,
   ((scanLine_block_transition
      { lineNumber := 7, multilineCommentLines := 3, singleLineCommentLines := 1,
        inMultilineComment := true } "end */ x").2.2.1 (by decide) (by decide)).2⟩

/-- C13, as stated, fails: in the file `/*`, empty line, `*/` the empty line is
reached inside the block comment and increments `multilineCommentLines`; the
file has no code line. -/
theorem blank_line_inside_block_counted :
    lineAt ["/*", "", "*/"] 1 = "" ∧
    (stateAfter ["/*", "", "*/"] 1).inMultilineComment = true ∧
    (stateAfter ["/*", "", "*/"] 2).multilineCommentLines =
      (stateAfter ["/*", "", "*/"] 1).multilineCommentLines + 1 ∧
    analyzeFile (fun _ => .ok ["/*", "", "*/"]) "a.ts" = (0, 3, 0, none) := by
  decide

/-- C13, amended: an empty line reached outside a block comment increments
neither comment counter and adds 1 to `codeLines`; an empty line reached inside
a block comment increments `multilineCommentLines` only and adds nothing to
`codeLines`. -/
theorem blank_line_counts (lines : List String) (k : Nat) (hk : k < lines.length)
    (hblank : lineAt lines k = "") :
    ((stateAfter lines k).inMultilineComment = false →
      (stateAfter lines (k + 1)).multilineCommentLines =
        (stateAfter lines k).multilineCommentLines ∧
      (stateAfter lines (k + 1)).singleLineCommentLines =
        (stateAfter lines k).singleLineCommentLines ∧
      (stateAfter lines (k + 1)).codeLines = (stateAfter lines k).codeLines + 1) ∧
    ((stateAfter lines k).inMultilineComment = true →
      (stateAfter lines (k + 1)).multilineCommentLines =
        (stateAfter lines k).multilineCommentLines + 1 ∧
      (stateAfter lines (k + 1)).singleLineCommentLines =
        (stateAfter lines k).singleLineCommentLines ∧
      (stateAfter lines (k + 1)).codeLines = (stateAfter lines k).codeLines) := by
  have ho : strings.Contains "" openComment = false := by decide
  have hs : strings.Contains "" singleLineComment = false := by decide
  rw [stateAfter_succ lines k hk, hblank]
  simp only [ScanState.codeLines, scanLine_multi, scanLine_single, scanLine_lineNumber, ho, hs]
  constructor
  · intro hin
    simp only [hin, Bool.false_eq_true, or_self, if_false, add_zero, true_and]
    ring
  · intro hin
    simp only [hin, or_true, if_true, Bool.false_eq_true, if_false, add_zero, true_and]
    ring

theorem blank_line_counts_witness :
    (stateAfter ["let a = 1;", "", "// b"] (1 + 1)).multilineCommentLines =
        (stateAfter ["let a = 1;", "", "// b"] 1).multilineCommentLines ∧
      (stateAfter ["let a = 1;", "", "// b"] (1 + 1)).singleLineCommentLines =
        (stateAfter ["let a = 1;", "", "// b"] 1).singleLineCommentLines ∧
      (stateAfter ["let a = 1;", "", "// b"] (1 + 1)).codeLines =
        (stateAfter ["let a = 1;", "", "// b"] 1).codeLines + 1 :=
  (blank_line_counts ["let a = 1;", "", "// b"] 1 (by decide) (by decide)).1 (by decide)

theorem scanFrom_single (lines : List String) (st : ScanState) :
    (scanFrom st lines).singleLineCommentLines =
      st.singleLineCommentLines +
        (lines.countP (fun l => strings.Contains l singleLineComment) : Nat) := by
  induction lines generalizing st with
  | nil => simp [scanFrom]
  | cons l ls ih =>
    have h := ih (scanLine st l)
    simp only [scanFrom, List.foldl_cons] at h ⊢
    rw [h, scanLine_single, List.countP_cons]
    split_ifs <;> simp_all
    ring

/-- C15: the `singleLineCommentLines` returned by `analyzeFile` is the number
of lines containing `//`, whatever the block-comment state at those lines and
whether or not they were also counted as block-comment lines. -/
theorem analyzeFile_single_count (fs : FileSystem) (filePath : String) (lines : List String)
    (hfile : fs filePath = .ok lines) :
    (analyzeFile fs filePath).2.2.1 =
      ((lines.countP (fun l => strings.Contains l singleLineComment) : Nat) : Int) := by
  rw [analyzeFile_ok fs filePath lines hfile]
  simp [scanLines, scanFrom_single, ScanState.init]

theorem analyzeFile_single_count_witness :
    (analyzeFile (fun _ => .ok ["/* a", "b // c", "*/ // d", "e"]) "a.ts").2.2.1 =
      (((["/* a", "b // c", "*/ // d", "e"] : List String).countP
        (fun l => strings.Contains l singleLineComment) : Nat) : Int) :=
  analyzeFile_single_count (fun _ => .ok ["/* a", "b // c", "*/ // d", "e"]) "a.ts" _ rfl

theorem scanLines_codeLines_sum (lines : List String) :
    (scanLines lines).codeLines + (scanLines lines).multilineCommentLines +
      (scanLines lines).singleLineCommentLines = (lines.length : Int) := by
  have hn := scanFrom_lineNumber lines ScanState.init
  simp only [ScanState.codeLines, scanLines]
  rw [hn]
  simp only [ScanState.init]
  ring

theorem incrementsMultiline_eq (lines : List String) (k : Nat) :
    incrementsMultiline lines k =
      (strings.Contains (lineAt lines k) openComment ||
        (stateAfter lines k).inMultilineComment) := by
  unfold incrementsMultiline
  rw [scanLine_multi]
  cases strings.Contains (lineAt lines k) openComment <;>
    cases (stateAfter lines k).inMultilineComment <;> simp

theorem incrementsSingleLine_eq (lines : List String) (k : Nat) :
    incrementsSingleLine lines k = strings.Contains (lineAt lines k) singleLineComment := by
  unfold incrementsSingleLine
  rw [scanLine_single]
  cases strings.Contains (lineAt lines k) singleLineComment <;> simp

/-- After `k` lines, `lineNumber - multilineCommentLines - singleLineCommentLines`
is the number of lines so far that incremented neither counter minus the number
that incremented both. -/
theorem stateAfter_codeLines (lines : List String) (k : Nat) (hk : k ≤ lines.length) :
    (stateAfter lines k).codeLines =
      (((List.range k).countP
          (fun i => !incrementsMultiline lines i && !incrementsSingleLine lines i) : Nat) : Int) -
        (((List.range k).countP
          (fun i => incrementsMultiline lines i && incrementsSingleLine lines i) : Nat) : Int) := by
  induction k with
  | zero => simp [stateAfter_zero, ScanState.codeLines, ScanState.init]
  | succ n ih =>
    have hprev := ih (by omega)
    rw [List.range_succ, List.countP_append, List.countP_append]
    simp only [List.countP_cons, List.countP_nil]
    rw [incrementsMultiline_eq lines n, incrementsSingleLine_eq lines n]
    rw [stateAfter_succ lines n (by omega)]
    simp only [ScanState.codeLines] at hprev ⊢
    rw [scanLine_multi, scanLine_single, scanLine_lineNumber]
    cases strings.Contains (lineAt lines n) openComment <;>
      cases (stateAfter lines n).inMultilineComment <;>
      cases strings.Contains (lineAt lines n) singleLineComment <;>
      simp <;> omega

/-- C16: the `codeLines` returned by `analyzeFile` is `N0 - N2`, the number of
lines that increment neither comment counter minus the number of lines that
increment both; so it is the number of uncommented lines iff no line is counted
twice, and it is negative iff `N2 > N0`. -/
theorem analyzeFile_codeLines_formula (fs : FileSystem) (filePath : String)
    (lines : List String) (hfile : fs filePath = .ok lines) :
    (analyzeFile fs filePath).1 = (countNeither lines : Int) - (countBoth lines : Int) ∧
    ((analyzeFile fs filePath).1 = (countNeither lines : Int) ↔ countBoth lines = 0) ∧
    ((analyzeFile fs filePath).1 < 0 ↔ countNeither lines < countBoth lines) := by
  have h := stateAfter_codeLines lines lines.length (Nat.le_refl _)
  rw [stateAfter_length] at h
  rw [analyzeFile_ok fs filePath lines hfile]
  simp only [countNeither, countBoth]
  rw [h]
  refine ⟨rfl, ?_, ?_⟩ <;> omega

theorem analyzeFile_codeLines_formula_witness :
    (analyzeFile (fun _ => .ok ["/* a */ // b", "c", "/* d */ // e", "// f"]) "a.ts").1 =
        (countNeither ["/* a */ // b", "c", "/* d */ // e", "// f"] : Int) -
          (countBoth ["/* a */ // b", "c", "/* d */ // e", "// f"] : Int) ∧
    ((analyzeFile (fun _ => .ok ["/* a */ // b", "c", "/* d */ // e", "// f"]) "a.ts").1 =
        (countNeither ["/* a */ // b", "c", "/* d */ // e", "// f"] : Int) ↔
      countBoth ["/* a */ // b", "c", "/* d */ // e", "// f"] = 0) ∧
    ((analyzeFile (fun _ => .ok ["/* a */ // b", "c", "/* d */ // e", "// f"]) "a.ts").1 < 0 ↔
      countNeither ["/* a */ // b", "c", "/* d */ // e", "// f"] <
        countBoth ["/* a */ // b", "c", "/* d */ // e", "// f"]) :=
  analyzeFile_codeLines_formula (fun _ => .ok ["/* a */ // b", "c", "/* d */ // e", "// f"])
    "a.ts" _ rfl

theorem aggregate_processed_eq_sum (results : List FileResult) :
    (aggregate results).totalProcessedLines =
      (aggregate results).totalCodeLines + (aggregate results).totalMultilineComments +
        (aggregate results).totalSingleLineComments := by
  induction results with
  | nil => rfl
  | cons r rs ih =>
    rw [aggregate_cons]
    by_cases hr : r.Error = none
    · simp only [Totals.add, aggregateStep, Totals.init, hr, ne_eq, not_true_eq_false,
        if_false, ih]
      ring
    · simp only [Totals.add, aggregateStep, Totals.init, hr, ne_eq, not_false_eq_true,
        if_true, ih]
      ring

theorem aggregateStep_analyzeFileAsync (fs : FileSystem) (filePath : String) :
    (aggregateStep Totals.init (analyzeFileAsync fs filePath)).totalProcessedLines =
      (linesRead fs filePath : Int) := by
  cases hfile : fs filePath with
  | error err =>
    simp [aggregateStep, analyzeFileAsync, analyzeFile_error fs filePath err hfile, linesRead,
      hfile, Totals.init]
  | ok lines =>
    have hsum := scanLines_codeLines_sum lines
    simp only [aggregateStep, analyzeFileAsync, analyzeFile_ok fs filePath lines hfile,
      linesRead, hfile, Totals.init, ne_eq, not_true_eq_false, if_false]
    rw [hsum]
    simp

theorem aggregate_processed_map (fs : FileSystem) (files : List String) :
    (aggregate (files.map (analyzeFileAsync fs))).totalProcessedLines =
      (((files.map (linesRead fs)).sum : Nat) : Int) := by
  induction files with
  | nil => rfl
  | cons f fs' ih =>
    rw [List.map_cons, aggregate_cons, List.map_cons, List.sum_cons]
    simp only [Totals.add]
    rw [ih, aggregateStep_analyzeFileAsync]
    push_cast
    rfl

theorem aggregate_perm (rs rs' : List FileResult) (hperm : rs.Perm rs') :
    aggregate rs = aggregate rs' := by
  unfold aggregate aggregateFrom
  exact hperm.foldl_eq' (fun x _ y _ z => aggregateStep_comm z x y) Totals.init

/-- C17: when the results delivered to the aggregation loop are those of
`analyzeFileAsync` on the input paths, in any order, `totalProcessedLines` is
`totalCodeLines + totalMultilineComments + totalSingleLineComments` and is the
total number of lines read over the files that opened without error. -/
theorem totalProcessedLines_eq_lines_read (fs : FileSystem) (files : List String)
    (results : List FileResult) (hresults : results.Perm (files.map (analyzeFileAsync fs))) :
    (aggregate results).totalProcessedLines =
      (aggregate results).totalCodeLines + (aggregate results).totalMultilineComments +
        (aggregate results).totalSingleLineComments ∧
    (aggregate results).totalProcessedLines =
      (((files.map (linesRead fs)).sum : Nat) : Int) := by
  refine ⟨aggregate_processed_eq_sum results, ?_⟩
  rw [aggregate_perm results _ hresults]
  exact aggregate_processed_map fs files

theorem totalProcessedLines_eq_lines_read_witness :
    (aggregate [analyzeFileAsync sampleFS "c.ts", analyzeFileAsync sampleFS "a.ts",
        analyzeFileAsync sampleFS "b.ts"]).totalProcessedLines =
      (aggregate [analyzeFileAsync sampleFS "c.ts", analyzeFileAsync sampleFS "a.ts",
        analyzeFileAsync sampleFS "b.ts"]).totalCodeLines +
      (aggregate [analyzeFileAsync sampleFS "c.ts", analyzeFileAsync sampleFS "a.ts",
        analyzeFileAsync sampleFS "b.ts"]).totalMultilineComments +
      (aggregate [analyzeFileAsync sampleFS "c.ts", analyzeFileAsync sampleFS "a.ts",
        analyzeFileAsync sampleFS "b.ts"]).totalSingleLineComments ∧
    (aggregate [analyzeFileAsync sampleFS "c.ts", analyzeFileAsync sampleFS "a.ts",
        analyzeFileAsync sampleFS "b.ts"]).totalProcessedLines =
      (((["a.ts", "b.ts", "c.ts"].map (linesRead sampleFS)).sum : Nat) : Int) :=
  totalProcessedLines_eq_lines_read sampleFS ["a.ts", "b.ts", "c.ts"]
    [analyzeFileAsync sampleFS "c.ts", analyzeFileAsync sampleFS "a.ts",
      analyzeFileAsync sampleFS "b.ts"] (by decide)

/-! ## Path discovery -/

theorem strings.Contains_iff_isInfix (s substr : String) :
    strings.Contains s substr = true ↔ substr.toList <:+: s.toList :=
  strings.containsChars_iff_isInfix s.toList substr.toList

theorem strings.HasSuffix_iff_isSuffix (s suffix : String) :
    strings.HasSuffix s suffix = true ↔ suffix.toList <:+ s.toList := by
  simp [strings.HasSuffix]

theorem shouldExcludeDir_iff (path : String) :
    shouldExcludeDir path = true ↔
      (strings.Contains path "node_modules" = true ∨ strings.Contains path "dist" = true) := by
  simp only [shouldExcludeDir, shouldExcludeDirLoop]
  cases strings.Contains path "node_modules" <;> cases strings.Contains path "dist" <;> simp

theorem walkFn_of_no_error (files : List String) (c : WalkCall) (hc : c.err = none) :
    walkFn files c = (if keepsEntry c then files ++ [c.path] else files, none) := by
  simp only [walkFn, hc, keepsEntry]
  split_ifs <;> simp_all

theorem walkFrom_of_no_error (walk : List WalkCall) (files : List String)
    (hwalk : ∀ c ∈ walk, c.err = none) :
    walkFrom files walk = (files ++ (walk.filter keepsEntry).map (fun c => c.path), none) := by
  induction walk generalizing files with
  | nil => simp [walkFrom]
  | cons c rest ih =>
    have hc : c.err = none := hwalk c (List.mem_cons_self _ _)
    have hrest : ∀ d ∈ rest, d.err = none := fun d hd => hwalk d (List.mem_cons_of_mem _ hd)
    simp only [walkFrom, walkFn_of_no_error files c hc]
    rw [ih _ hrest]
    by_cases hk : keepsEntry c = true
    · simp [hk, List.filter_cons]
    · simp [hk, List.filter_cons]

/-- C14: `shouldExcludeDir(path)` is true iff `path` has `node_modules` or
`dist` as a substring anywhere, so `src/distance.ts` is excluded; and, when the
walk meets no error, `getTSFilesInFolder` returns, in walk order, the paths of
exactly the entries that are not directories, are not excluded by
`shouldExcludeDir`, and whose name ends with `.ts` or `.tsx`. -/
theorem path_filter_substring_suffix :
    (∀ path : String, shouldExcludeDir path = true ↔
      ("node_modules".toList <:+: path.toList ∨ "dist".toList <:+: path.toList)) ∧
    shouldExcludeDir "src/distance.ts" = true ∧
    (∀ walk : List WalkCall, (∀ c ∈ walk, c.err = none) →
      getTSFilesInFolder walk =
        ((walk.filter (fun c => !c.info.IsDir && !shouldExcludeDir c.path &&
            (strings.HasSuffix c.info.Name ".ts" || strings.HasSuffix c.info.Name ".tsx"))).map
          (fun c => c.path), none)) ∧
    (∀ name suffix : String,
      strings.HasSuffix name suffix = true ↔ suffix.toList <:+ name.toList) := by
  refine ⟨?_, by decide, ?_, strings.HasSuffix_iff_isSuffix⟩
  · intro path
    rw [shouldExcludeDir_iff, strings.Contains_iff_isInfix, strings.Contains_iff_isInfix]
  · intro walk hwalk
    unfold getTSFilesInFolder
    rw [walkFrom_of_no_error walk [] hwalk]
    simp only [List.nil_append, Prod.mk.injEq, and_true]
    congr 2
    funext c
    simp only [keepsEntry, Bool.or_comm]

theorem path_filter_substring_suffix_witness :
    getTSFilesInFolder
        [{ path := "app", info := { Name := "app", IsDir := true }, err := none },
         { path := "app/main.ts", info := { Name := "main.ts", IsDir := false }, err := none },
         { path := "app/distance.ts", info := { Name := "distance.ts", IsDir := false },
           err := none },
         { path := "app/view.tsx", info := { Name := "view.tsx", IsDir := false },
           err := none },
         { path := "app/notes.txt", info := { Name := "notes.txt", IsDir := false },
           err := none }] =
      (([{ path := "app", info := { Name := "app", IsDir := true }, err := none },
         { path := "app/main.ts", info := { Name := "main.ts", IsDir := false }, err := none },
         { path := "app/distance.ts", info := { Name := "distance.ts", IsDir := false },
           err := none },
         { path := "app/view.tsx", info := { Name := "view.tsx", IsDir := false },
           err := none },
         { path := "app/notes.txt", info := { Name := "notes.txt", IsDir := false },
           err := none }] : List WalkCall).filter
          (fun c => !c.info.IsDir && !shouldExcludeDir c.path &&
            (strings.HasSuffix c.info.Name ".ts" || strings.HasSuffix c.info.Name ".tsx"))
        |>.map (fun c => c.path), none) :=
  path_filter_substring_suffix.2.2.1 _ (by decide)

/-! ## The goroutines of `main` -/

theorem perm_cons_eraseIdx {α : Type} (l : List α) (i : Nat) (x : α) (h : l[i]? = some x) :
    l.Perm (x :: l.eraseIdx i) := by
  induction l generalizing i with
  | nil => simp at h
  | cons y ys ih =>
    cases i with
    | zero =>
      simp only [List.getElem?_cons_zero, Option.some.injEq] at h
      subst h
      simp
    | succ n =>
      simp only [List.getElem?_cons_succ] at h
      simp only [List.eraseIdx_cons_succ]
      exact ((ih n h).cons y).trans (List.Perm.swap x y _)

theorem length_eraseIdx_of_get {α : Type} (l : List α) (i : Nat) (x : α)
    (h : l[i]? = some x) : (l.eraseIdx i).length + 1 = l.length := by
  have hp := (perm_cons_eraseIdx l i x h).length_eq
  simp only [List.length_cons] at hp
  omega

theorem DispatchInv.init (fs : FileSystem) (files : List String) :
    DispatchInv fs files (DispatchState.init files) where
  noPanic := rfl
  counter := rfl
  loopOver := fun h => absurd rfl h
  released := fun h => by
    rcases h with h | h <;> simp [DispatchState.init] at h
  results := by simp [DispatchState.init]
  finished := fun h => by simp [DispatchState.init] at h

theorem dispatchStep_noPanic (fs : FileSystem) (cap : Nat) (s s' : DispatchState) (a : Action)
    (h : dispatchStep fs cap s a = some s') : s.panicked = false := by
  cases hp : s.panicked with
  | false => rfl
  | true => cases a <;> simp [dispatchStep, hp] at h

theorem DispatchInv.step (fs : FileSystem) (files : List String) (s s' : DispatchState)
    (a : Action) (hinv : DispatchInv fs files s)
    (h : dispatchStep fs files.length s a = some s') : DispatchInv fs files s' := by
  obtain ⟨hnp, hwg, hloop, hrel, hres, hfin⟩ := hinv
  obtain ⟨pending, running, sent, wg, closer, buffer, received, consumerDone, panicked⟩ := s
  dsimp only at hnp hwg hloop hrel hres hfin
  subst hnp
  cases a with
  | launch =>
    cases pending with
    | nil => simp [dispatchStep] at h
    | cons file rest =>
      simp only [dispatchStep, Bool.false_eq_true, if_false, Option.some.injEq] at h
      subst h
      have hc : closer = .notStarted := by
        by_contra hne
        exact absurd (hloop hne) (by simp)
      subst hc
      refine ⟨rfl, ?_, ?_, ?_, ?_, hfin⟩
      · simp [hwg]; ring
      · intro hc; exact absurd rfl hc
      · intro hc; rcases hc with hc | hc <;> cases hc
      · refine List.Perm.trans ?_ hres
        simp only [List.map_append, List.map_cons, List.append_assoc, List.singleton_append,
          List.map_nil]
        exact List.Perm.refl _
  | spawnCloser =>
    simp only [dispatchStep, Bool.false_eq_true, if_false] at h
    split_ifs at h with hc
    obtain ⟨hp, hc⟩ := hc
    simp only [Option.some.injEq] at h
    subst h hp hc
    refine ⟨rfl, hwg, fun _ => rfl, ?_, hres, ?_⟩
    · intro hc; rcases hc with hc | hc <;> cases hc
    · intro hd
      have := (hfin hd).1
      cases this
  | send i =>
    simp only [dispatchStep, Bool.false_eq_true, if_false] at h
    cases hr : running[i]? with
    | none => simp [hr] at h
    | some file =>
      simp only [hr] at h
      have hne : running ≠ [] := by
        intro he
        subst he
        simp at hr
      have hcl : closer ≠ .closed := fun hc => hne (hrel (Or.inr hc)).1
      have hrl : closer ≠ .released := fun hc => hne (hrel (Or.inl hc)).1
      rw [if_neg hcl] at h
      split_ifs at h with hcap
      simp only [Option.some.injEq] at h
      subst h
      have hlen := length_eraseIdx_of_get running i file hr
      refine ⟨rfl, ?_, hloop, ?_, ?_, ?_⟩
      · simp only [List.length_append, List.length_singleton]
        push_cast
        omega
      · intro hc
        rcases hc with hc | hc
        · exact absurd hc hrl
        · exact absurd hc hcl
      · refine List.Perm.trans ?_ hres
        have hp := perm_cons_eraseIdx running i file hr
        simp only [List.append_assoc, List.map_append, List.singleton_append]
        refine List.Perm.append_left _ (List.Perm.append_left _ ?_)
        exact ((hp.map (analyzeFileAsync fs)).append_right _).symm
      · intro hd
        exact absurd (hfin hd).1 hcl
  | done i =>
    simp only [dispatchStep, Bool.false_eq_true, if_false] at h
    cases hr : sent[i]? with
    | none => simp [hr] at h
    | some file =>
      simp only [hr] at h
      have hlen := length_eraseIdx_of_get sent i file hr
      have hne : sent ≠ [] := by
        intro he
        subst he
        simp at hr
      have hpos : ¬ wg ≤ 0 := by omega
      rw [if_neg hpos] at h
      simp only [Option.some.injEq] at h
      subst h
      refine ⟨rfl, ?_, hloop, ?_, hres, ?_⟩
      · show wg - 1 = (running.length : Int) + ((sent.eraseIdx i).length : Int)
        omega
      · intro hc
        exact absurd (hrel hc).2 hne
      · intro hd
        exact absurd (hrel (Or.inr (hfin hd).1)).2 hne
  | wake =>
    simp only [dispatchStep, Bool.false_eq_true, if_false] at h
    split_ifs at h with hc
    obtain ⟨hc, hz⟩ := hc
    simp only [Option.some.injEq] at h
    subst h hc
    refine ⟨rfl, hwg, fun _ => hloop (by decide), ?_, hres, ?_⟩
    · intro _
      have hzero : running.length = 0 ∧ sent.length = 0 := by omega
      exact ⟨List.length_eq_zero.mp hzero.1, List.length_eq_zero.mp hzero.2⟩
    · intro hd
      have := (hfin hd).1
      cases this
  | close =>
    simp only [dispatchStep, Bool.false_eq_true, if_false] at h
    split_ifs at h with hc
    simp only [Option.some.injEq] at h
    subst h hc
    refine ⟨rfl, hwg, fun _ => hloop (by decide), fun _ => hrel (Or.inl rfl), hres, ?_⟩
    intro hd
    have := (hfin hd).1
    cases this
  | recv =>
    simp only [dispatchStep, Bool.false_eq_true, if_false] at h
    split_ifs at h with hc
    obtain ⟨hc, hd⟩ := hc
    cases buffer with
    | nil => simp at h
    | cons r rest =>
      simp only [Option.some.injEq] at h
      subst h hd
      refine ⟨rfl, hwg, hloop, hrel, ?_, ?_⟩
      · refine List.Perm.trans ?_ hres
        simp only [List.append_assoc, List.singleton_append]
        exact List.Perm.refl _
      · intro hd
        cases hd
  | finish =>
    simp only [dispatchStep, Bool.false_eq_true, if_false] at h
    split_ifs at h with hc
    obtain ⟨hc, hb, hd⟩ := hc
    simp only [Option.some.injEq] at h
    subst h hc hb
    exact ⟨rfl, hwg, hloop, hrel, hres, fun _ => ⟨rfl, rfl⟩⟩

theorem dispatchStep_stepsLeft (fs : FileSystem) (cap : Nat) (s s' : DispatchState) (a : Action)
    (h : dispatchStep fs cap s a = some s') : s'.stepsLeft < s.stepsLeft := by
  have hnp := dispatchStep_noPanic fs cap s s' a h
  obtain ⟨pending, running, sent, wg, closer, buffer, received, consumerDone, panicked⟩ := s
  dsimp only at hnp
  subst hnp
  cases a with
  | launch =>
    cases pending with
    | nil => simp [dispatchStep] at h
    | cons file rest =>
      simp only [dispatchStep, Bool.false_eq_true, if_false, Option.some.injEq] at h
      subst h
      simp only [DispatchState.stepsLeft, List.length_cons, List.length_append,
        List.length_singleton, List.length_nil]
      omega
  | spawnCloser =>
    simp only [dispatchStep, Bool.false_eq_true, if_false] at h
    split_ifs at h with hc
    obtain ⟨_, hc⟩ := hc
    simp only [Option.some.injEq] at h
    subst h hc
    simp only [DispatchState.stepsLeft, CloserPhase.rank]
    omega
  | send i =>
    simp only [dispatchStep, Bool.false_eq_true, if_false] at h
    cases hr : running[i]? with
    | none => simp [hr] at h
    | some file =>
      simp only [hr] at h
      have hlen := length_eraseIdx_of_get running i file hr
      split_ifs at h with hc hcap
      · simp only [Option.some.injEq] at h
        subst h
        simp only [DispatchState.stepsLeft, Bool.false_eq_true, if_false, if_true]
        omega
      · simp only [Option.some.injEq] at h
        subst h
        simp only [DispatchState.stepsLeft, List.length_append, List.length_singleton]
        omega
  | done i =>
    simp only [dispatchStep, Bool.false_eq_true, if_false] at h
    cases hr : sent[i]? with
    | none => simp [hr] at h
    | some file =>
      simp only [hr] at h
      have hlen := length_eraseIdx_of_get sent i file hr
      split_ifs at h with hc
      · simp only [Option.some.injEq] at h
        subst h
        simp only [DispatchState.stepsLeft, Bool.false_eq_true, if_false, if_true]
        omega
      · simp only [Option.some.injEq] at h
        subst h
        simp only [DispatchState.stepsLeft]
        omega
  | wake =>
    simp only [dispatchStep, Bool.false_eq_true, if_false] at h
    split_ifs at h with hc
    obtain ⟨hc, _⟩ := hc
    simp only [Option.some.injEq] at h
    subst h hc
    simp only [DispatchState.stepsLeft, CloserPhase.rank]
    omega
  | close =>
    simp only [dispatchStep, Bool.false_eq_true, if_false] at h
    split_ifs at h with hc
    simp only [Option.some.injEq] at h
    subst h hc
    simp only [DispatchState.stepsLeft, CloserPhase.rank]
    omega
  | recv =>
    simp only [dispatchStep, Bool.false_eq_true, if_false] at h
    split_ifs at h with hc
    cases buffer with
    | nil => simp at h
    | cons r rest =>
      simp only [Option.some.injEq] at h
      subst h
      simp only [DispatchState.stepsLeft, List.length_cons]
      omega
  | finish =>
    simp only [dispatchStep, Bool.false_eq_true, if_false] at h
    split_ifs at h with hc
    obtain ⟨_, _, hd⟩ := hc
    simp only [Option.some.injEq] at h
    subst h hd
    simp only [DispatchState.stepsLeft, Bool.false_eq_true, if_false, if_true]
    omega

theorem runSchedule_append (fs : FileSystem) (cap : Nat) (s : DispatchState)
    (first rest : List Action) :
    runSchedule fs cap s (first ++ rest) =
      (runSchedule fs cap s first).bind (fun s' => runSchedule fs cap s' rest) := by
  induction first generalizing s with
  | nil => rfl
  | cons a first ih =>
    simp only [List.cons_append, runSchedule]
    cases dispatchStep fs cap s a with
    | none => rfl
    | some s1 => exact ih s1

theorem runSchedule_inv (fs : FileSystem) (files : List String) (schedule : List Action)
    (s s' : DispatchState) (hinv : DispatchInv fs files s)
    (h : runSchedule fs files.length s schedule = some s') : DispatchInv fs files s' := by
  induction schedule generalizing s with
  | nil =>
    simp only [runSchedule, Option.some.injEq] at h
    exact h ▸ hinv
  | cons a rest ih =>
    simp only [runSchedule] at h
    cases hs : dispatchStep fs files.length s a with
    | none => simp [hs] at h
    | some s1 =>
      simp only [hs] at h
      exact ih s1 (DispatchInv.step fs files s s1 a hinv hs) h

theorem runSchedule_stepsLeft (fs : FileSystem) (cap : Nat) (schedule : List Action)
    (s s' : DispatchState) (h : runSchedule fs cap s schedule = some s') :
    s'.stepsLeft + schedule.length ≤ s.stepsLeft := by
  induction schedule generalizing s with
  | nil =>
    simp only [runSchedule, Option.some.injEq] at h
    simp [h]
  | cons a rest ih =>
    simp only [runSchedule] at h
    cases hs : dispatchStep fs cap s a with
    | none => simp [hs] at h
    | some s1 =>
      simp only [hs] at h
      have h1 := dispatchStep_stepsLeft fs cap s s1 a hs
      have h2 := ih s1 h
      simp only [List.length_cons]
      omega

theorem DispatchState.stepsLeft_init (files : List String) :
    (DispatchState.init files).stepsLeft = 5 * files.length + 5 := by
  simp [DispatchState.stepsLeft, DispatchState.init, CloserPhase.rank]

theorem DispatchInv.length_eq {fs : FileSystem} {files : List String} {s : DispatchState}
    (hinv : DispatchInv fs files s) :
    s.received.length + s.buffer.length + s.running.length + s.pending.length =
      files.length := by
  have h := hinv.results.length_eq
  simp only [List.length_append, List.length_map] at h
  omega

theorem DispatchInv.send_enabled {fs : FileSystem} {files : List String} {s : DispatchState}
    (hinv : DispatchInv fs files s) (i : Nat) (file : String)
    (hr : s.running[i]? = some file) :
    dispatchStep fs files.length s (.send i) =
      some { s with running := s.running.eraseIdx i, sent := s.sent ++ [file],
                    buffer := s.buffer ++ [analyzeFileAsync fs file] } := by
  have hne : s.running ≠ [] := by
    intro he
    rw [he] at hr
    simp at hr
  have hcl : s.closer ≠ .closed := fun hc => hne (hinv.released (Or.inr hc)).1
  have hpos : 0 < s.running.length := List.length_pos.mpr hne
  have hcap : s.buffer.length < files.length := by
    have := hinv.length_eq
    omega
  simp only [dispatchStep, hinv.noPanic, Bool.false_eq_true, if_false, hr, if_neg hcl,
    if_pos hcap]

theorem DispatchInv.done_enabled {fs : FileSystem} {files : List String} {s : DispatchState}
    (hinv : DispatchInv fs files s) (i : Nat) (file : String)
    (hr : s.sent[i]? = some file) :
    dispatchStep fs files.length s (.done i) =
      some { s with sent := s.sent.eraseIdx i, wg := s.wg - 1 } := by
  have hlen := length_eraseIdx_of_get s.sent i file hr
  have hpos : ¬ s.wg ≤ 0 := by
    have := hinv.counter
    omega
  simp only [dispatchStep, hinv.noPanic, Bool.false_eq_true, if_false, hr, if_neg hpos]

theorem DispatchInv.progress {fs : FileSystem} {files : List String} {s : DispatchState}
    (hinv : DispatchInv fs files s) (hd : s.consumerDone = false) :
    ∃ a s', dispatchStep fs files.length s a = some s' := by
  cases hp : s.pending with
  | cons file rest =>
    exact ⟨.launch, _, by
      simp only [dispatchStep, hinv.noPanic, Bool.false_eq_true, if_false, hp]
      rfl⟩
  | nil =>
    cases hr : s.running with
    | cons file rest =>
      exact ⟨.send 0, _, hinv.send_enabled 0 file (by simp [hr])⟩
    | nil =>
      cases hs : s.sent with
      | cons file rest =>
        exact ⟨.done 0, _, hinv.done_enabled 0 file (by simp [hs])⟩
      | nil =>
        have hwg : s.wg = 0 := by
          have := hinv.counter
          simp only [hr, hs, List.length_nil] at this
          simpa using this
        cases hc : s.closer with
        | notStarted =>
          exact ⟨.spawnCloser, _, by
            simp only [dispatchStep, hinv.noPanic, Bool.false_eq_true, if_false, hp, hc,
              and_self, if_true]
            rfl⟩
        | waiting =>
          exact ⟨.wake, _, by
            simp only [dispatchStep, hinv.noPanic, Bool.false_eq_true, if_false, hc, hwg,
              and_self, if_true]
            rfl⟩
        | released =>
          exact ⟨.close, _, by
            simp only [dispatchStep, hinv.noPanic, Bool.false_eq_true, if_false, hc,
              if_true]
            rfl⟩
        | closed =>
          cases hb : s.buffer with
          | cons r rest =>
            exact ⟨.recv, _, by
              simp only [dispatchStep, hinv.noPanic, Bool.false_eq_true, if_false, hc, hd,
                hb, ne_eq, reduceCtorEq, not_false_eq_true, and_self, if_true]
              rfl⟩
          | nil =>
            exact ⟨.finish, _, by
              simp only [dispatchStep, hinv.noPanic, Bool.false_eq_true, if_false, hc, hd,
                hb, and_self, if_true]
              rfl⟩

theorem DispatchInv.completes (fs : FileSystem) (files : List String) (n : Nat) :
    ∀ s : DispatchState, DispatchInv fs files s → s.stepsLeft ≤ n →
      ∃ rest s', runSchedule fs files.length s rest = some s' ∧ s'.consumerDone = true := by
  induction n with
  | zero =>
    intro s hinv hn
    cases hd : s.consumerDone with
    | true => exact ⟨[], s, rfl, hd⟩
    | false =>
      obtain ⟨a, s1, hs⟩ := hinv.progress hd
      have := dispatchStep_stepsLeft fs files.length s s1 a hs
      omega
  | succ n ih =>
    intro s hinv hn
    cases hd : s.consumerDone with
    | true => exact ⟨[], s, rfl, hd⟩
    | false =>
      obtain ⟨a, s1, hs⟩ := hinv.progress hd
      have hlt := dispatchStep_stepsLeft fs files.length s s1 a hs
      obtain ⟨rest, s2, hrun, hdone⟩ :=
        ih s1 (DispatchInv.step fs files s s1 a hinv hs) (by omega)
      exact ⟨a :: rest, s2, by simp only [runSchedule, hs, hrun], hdone⟩

theorem analyzeFileAsync_FilePath (fs : FileSystem) (filePath : String) :
    (analyzeFileAsync fs filePath).FilePath = filePath := by
  simp only [analyzeFileAsync]

theorem map_FilePath_analyzeFileAsync (fs : FileSystem) (files : List String) :
    (files.map (analyzeFileAsync fs)).map (fun r => r.FilePath) = files := by
  induction files with
  | nil => rfl
  | cons file rest ih =>
    simp only [List.map_cons, analyzeFileAsync_FilePath, List.cons.injEq, true_and]
    exact ih

/-- C11: for every list of `N` file paths and every schedule of the steps of
`main`, of the `N` workers and of the closing goroutine that can be run from
the start of the dispatch loop, no goroutine panics; the results received,
those buffered in `resultCh` and those of the workers still to send are
together a permutation of one `FileResult` per input path; once `resultCh` is
closed no worker is outstanding and every result is received or buffered; a
worker that is ready to send is never blocked; some goroutine can take a step
until the aggregation loop has ended; the schedule has at most `5 * N + 5`
steps and extends to one on which the aggregation loop ends; and when that loop
has ended it has received exactly `N` results, a permutation of the results of
the `N` paths, one per path. -/
theorem dispatch_delivers_each_result_once (fs : FileSystem) (files : List String)
    (schedule : List Action) (s : DispatchState)
    (hrun : dispatch fs files schedule = some s) :
    s.panicked = false ∧
    schedule.length ≤ 5 * files.length + 5 ∧
    (s.received ++ s.buffer ++ (s.running ++ s.pending).map (analyzeFileAsync fs)).Perm
      (files.map (analyzeFileAsync fs)) ∧
    (s.closer = .closed →
      s.pending = [] ∧ s.running = [] ∧ s.sent = [] ∧ s.wg = 0 ∧
      (s.received ++ s.buffer).Perm (files.map (analyzeFileAsync fs))) ∧
    (∀ i file, s.running[i]? = some file →
      ∃ s', dispatchStep fs files.length s (.send i) = some s' ∧ s'.panicked = false ∧
        s'.buffer = s.buffer ++ [analyzeFileAsync fs file]) ∧
    (s.consumerDone = false → ∃ a s', dispatchStep fs files.length s a = some s') ∧
    (∃ rest s', dispatch fs files (schedule ++ rest) = some s' ∧ s'.consumerDone = true) ∧
    (s.consumerDone = true →
      s.received.Perm (files.map (analyzeFileAsync fs)) ∧
      s.received.length = files.length ∧
      (s.received.map (fun r => r.FilePath)).Perm files) := by
  have hinv : DispatchInv fs files s :=
    runSchedule_inv fs files schedule _ s (DispatchInv.init fs files) hrun
  have hclosed : s.closer = .closed →
      s.pending = [] ∧ s.running = [] ∧ s.sent = [] ∧ s.wg = 0 ∧
      (s.received ++ s.buffer).Perm (files.map (analyzeFileAsync fs)) := by
    intro hc
    have hp := hinv.loopOver (by rw [hc]; decide)
    obtain ⟨hr, hs⟩ := hinv.released (Or.inr hc)
    have hres := hinv.results
    have hwg := hinv.counter
    simp only [hr, hs, hp, List.length_nil, List.append_nil, List.map_nil] at hres hwg
    exact ⟨hp, hr, hs, by simpa using hwg, hres⟩
  refine ⟨hinv.noPanic, ?_, hinv.results, hclosed, ?_, hinv.progress, ?_, ?_⟩
  · have h := runSchedule_stepsLeft fs files.length schedule _ s hrun
    rw [DispatchState.stepsLeft_init] at h
    omega
  · intro i file hr
    exact ⟨_, hinv.send_enabled i file hr, hinv.noPanic, rfl⟩
  · obtain ⟨rest, s2, hrest, hdone⟩ := DispatchInv.completes fs files s.stepsLeft s hinv le_rfl
    refine ⟨rest, s2, ?_, hdone⟩
    unfold dispatch at hrun ⊢
    rw [runSchedule_append, hrun]
    exact hrest
  · intro hd
    obtain ⟨hc, hb⟩ := hinv.finished hd
    obtain ⟨_, _, _, _, hres⟩ := hclosed hc
    rw [hb, List.append_nil] at hres
    refine ⟨hres, ?_, ?_⟩
    · simpa using hres.length_eq
    · have h := hres.map (fun r => r.FilePath)
      rw [map_FilePath_analyzeFileAsync] at h
      exact h

theorem dispatch_delivers_each_result_once_witness :
    dispatch sampleFS ["a.ts", "b.ts"]
        [.launch, .launch, .send 1, .send 0, .spawnCloser, .done 0, .done 0, .wake, .close,
         .recv, .recv, .finish] =
      some { pending := [], running := [], sent := [], wg := 0, closer := .closed,
             buffer := [],
             received := [analyzeFileAsync sampleFS "b.ts", analyzeFileAsync sampleFS "a.ts"],
             consumerDone := true, panicked := false } ∧
    [analyzeFileAsync sampleFS "b.ts", analyzeFileAsync sampleFS "a.ts"].Perm
      (["a.ts", "b.ts"].map (analyzeFileAsync sampleFS)) ∧
    [analyzeFileAsync sampleFS "b.ts", analyzeFileAsync sampleFS "a.ts"].length = 2 :=
  ⟨by decide,
   ((dispatch_delivers_each_result_once sampleFS ["a.ts", "b.ts"]
      [.launch, .launch, .send 1, .send 0, .spawnCloser, .done 0, .done 0, .wake, .close,
       .recv, .recv, .finish]
      { pending := [], running := [], sent := [], wg := 0, closer := .closed,
        buffer := [],
        received := [analyzeFileAsync sampleFS "b.ts", analyzeFileAsync sampleFS "a.ts"],
        consumerDone := true, panicked := false } (by decide)).2.2.2.2.2.2.2 rfl).1,
   rfl⟩

end gocomments
